import Mathlib

/-!
Verification development for the LenslessPiCam core pipeline.

This file gives a shallow embedding of the numeric pipeline of
`lensless/hardware/slm.py` (mask rendering and intensity-PSF computation) and
`lensless/io.py` (PSF and measurement conditioning), and proves or refutes the
specified properties of those operations.

Modelling conventions:
- Array values are exact rationals (`ℚ`); the IEEE special values produced by
  numpy's unguarded divisions are modelled by the type `FVal` with explicit
  `nan` / `pinf` / `ninf` constructors (0/0 = nan, x/0 = ±inf).
- `ndarray.astype(int)` is truncation toward zero (`npTrunc`); `np.round` is
  round-half-to-even (`npRound`); numpy basic slicing `a[s:e]` clamps negative
  and overlarge bounds exactly as Python slices do (`npClamp`).  A slice
  assignment never clips its right-hand side: when a fixed-shape array does
  not broadcast into the clipped view, numpy raises `ValueError`
  (`broadcastOk`), and the function raising it returns nothing.
- `np.max` over an array is a fold of `max` over all in-bounds entries.
- The final normalisation of a PSF divides by the Euclidean norm of the
  flattened array; this square root lives in `ℝ`, so the conditioned arrays
  are real-valued while all earlier pipeline stages are rational.
- External library calls that the repository's own code depends on
  (`waveprop.slm.get_centers`, `waveprop.slm.get_color_filter`,
  `waveprop.rs.angular_spectrum`, `waveprop.spherical.spherical_prop`,
  `lensless.util.resize`) are modelled from the specification; each such
  definition carries a doc comment saying so.  The numpy execution path is
  embedded (the torch path runs the same arithmetic), with `rotate=None` and
  `flip=False`.
-/

namespace Lensless

/-! ## Numpy numeric primitives -/

/-- Truncation toward zero, the semantics of `ndarray.astype(int)` for a
finite float value. -/
def npTrunc (q : ℚ) : ℤ := if 0 ≤ q then ⌊q⌋ else -⌊-q⌋

/-- Round half to even, the semantics of `np.round` on a finite value. -/
def npRound (q : ℚ) : ℤ :=
  if q - ⌊q⌋ < 1/2 then ⌊q⌋
  else if 1/2 < q - ⌊q⌋ then ⌊q⌋ + 1
  else if 2 ∣ ⌊q⌋ then ⌊q⌋ else ⌊q⌋ + 1

/-- IEEE-style float value: a finite rational, NaN, or a signed infinity.
Only the operations the embedded code performs on such values are defined. -/
inductive FVal where
  | fin : ℚ → FVal
  | nan : FVal
  | pinf : FVal
  | ninf : FVal
deriving DecidableEq

/-- Numpy division of two finite values: `0/0 = nan`, `x/0 = ±inf` and no
exception is raised (numpy only emits a RuntimeWarning). -/
def npDiv (a b : ℚ) : FVal :=
  if b = 0 then (if a = 0 then .nan else if 0 < a then .pinf else .ninf)
  else .fin (a / b)

/-- The quantisation step `np.round(mask * 255) / 255.0` applied to one value
(`slm.py` lines 196-199); NaN and infinities propagate through `np.round`
and the division by 255. -/
def quantF : FVal → FVal
  | .fin q => .fin ((npRound (q * 255) : ℚ) / 255)
  | .nan => .nan
  | .pinf => .pinf
  | .ninf => .ninf

/-- Clamping of one bound of a Python slice on an axis of length `n`:
negative indices are taken from the end, then the result is clamped
to `[0, n]`. -/
def npClamp (x : ℤ) (n : ℕ) : ℤ :=
  if x < 0 then max ((n : ℤ) + x) 0 else min x (n : ℤ)

theorem npTrunc_intCast (n : ℤ) : npTrunc (n : ℚ) = n := by
  unfold npTrunc
  rcases le_or_lt 0 (n : ℚ) with h | h
  · rw [if_pos h, Int.floor_intCast]
  · rw [if_neg (not_le.mpr h)]
    rw [show (-(n : ℚ)) = ((-n : ℤ) : ℚ) by push_cast; ring, Int.floor_intCast]
    ring

theorem npTrunc_natCast (n : ℕ) : npTrunc (n : ℚ) = n := by
  rw [show ((n : ℚ)) = ((n : ℤ) : ℚ) by push_cast; ring, npTrunc_intCast]

theorem npTrunc_of_lt_one {q : ℚ} (h0 : 0 ≤ q) (h1 : q < 1) : npTrunc q = 0 := by
  unfold npTrunc
  rw [if_pos h0, Int.floor_eq_zero_iff.mpr]
  constructor
  · exact_mod_cast h0
  · exact_mod_cast h1

theorem npRound_intCast (n : ℤ) : npRound (n : ℚ) = n := by
  unfold npRound
  rw [Int.floor_intCast, sub_self]
  norm_num

theorem npRound_nonneg {q : ℚ} (h : 0 ≤ q) : 0 ≤ npRound q := by
  have hf : (0 : ℤ) ≤ ⌊q⌋ := Int.floor_nonneg.mpr h
  unfold npRound
  split
  · exact hf
  · split
    · omega
    · split
      · exact hf
      · omega

theorem npRound_le {q : ℚ} {B : ℤ} (h : q ≤ (B : ℚ)) : npRound q ≤ B := by
  have hfB : ⌊q⌋ ≤ B := by
    have := Int.floor_le_floor h
    rwa [Int.floor_intCast] at this
  unfold npRound
  split
  · exact hfB
  · rename_i h1
    push_neg at h1
    have hlt : (⌊q⌋ : ℚ) < q := by
      by_contra hc
      push_neg at hc
      have := Int.floor_le q
      have : q = (⌊q⌋ : ℚ) := le_antisymm hc this
      rw [this] at h1
      simp at h1
      norm_num at h1
    have hfBlt : ⌊q⌋ < B := by
      by_contra hc
      push_neg at hc
      have : (B : ℚ) ≤ (⌊q⌋ : ℚ) := by exact_mod_cast hc
      linarith
    split
    · omega
    · split
      · exact hfB
      · omega

/-! ## Fold-max helpers (the model of `np.max`) -/

theorem le_foldl_max (a : ℚ) (l : List ℚ) : a ≤ l.foldl max a := by
  induction l generalizing a with
  | nil => simp
  | cons b t ih => exact le_trans (le_max_left a b) (ih (max a b))

theorem mem_le_foldl_max {x : ℚ} {l : List ℚ} (h : x ∈ l) (a : ℚ) :
    x ≤ l.foldl max a := by
  induction l generalizing a with
  | nil => simp at h
  | cons b t ih =>
      rcases List.mem_cons.mp h with rfl | hmem
      · exact le_trans (le_max_right a x) (le_foldl_max _ _)
      · exact ih hmem (max a b)

theorem foldl_max_le {a B : ℚ} {l : List ℚ} (ha : a ≤ B)
    (h : ∀ x ∈ l, x ≤ B) : l.foldl max a ≤ B := by
  induction l generalizing a with
  | nil => simpa using ha
  | cons b t ih =>
      refine ih (max_le ha (h b (List.mem_cons_self b t))) ?_
      intro x hx
      exact h x (List.mem_cons_of_mem b hx)

/-! ## Data model for `lensless/hardware/slm.py` -/

/-- Sensor descriptor: pixel resolution and pixel pitch (`sensor.resolution`,
`sensor.pitch`). -/
structure SensorSpec where
  resH : ℕ
  resW : ℕ
  pitch : ℚ

/-- The fields of `slm_param` that `get_programmable_mask` reads:
`CELL_SIZE`, `PITCH`, and the presence and grid shape of the
`"color_filter"` entry (`none` models a monochrome device whose parameter
table lacks that key). -/
structure SlmParam where
  cellH : ℚ
  cellW : ℚ
  pitchY : ℚ
  pitchX : ℚ
  colorFilterShape : Option (ℕ × ℕ)

/-- Errors the embedded functions can raise: a Python `KeyError` from a
missing dict entry, an `AssertionError` from a failed `assert`, or a numpy
`ValueError` from a slice assignment whose fixed-shape right-hand side does
not broadcast into the (border-clipped) view. -/
inductive SlmError where
  | keyError
  | assertionError
  | valueError
deriving DecidableEq

/-- Everything `get_programmable_mask` consumes: the SLM values `vals`
(already in the 2-D controllable-region layout, `nRows × nCols`), the sensor,
the SLM parameters, and the per-cell per-channel colour-filter weight
function `cfw`.  `cfw` stands for the array `cf` computed by the external
`waveprop.slm.get_color_filter`; it is modelled from the spec as an arbitrary
per-cell colour-filter weight table (flat cell index, channel ↦ weight). -/
structure RenderCtx where
  nRows : ℕ
  nCols : ℕ
  vals : ℕ → ℕ → ℚ
  sensor : SensorSpec
  slm : SlmParam
  cfw : ℕ → ℕ → ℚ

/-- Modelled from the spec: `waveprop.slm.get_centers` — "compute each cell's
physical centre from its index and pitch", on a grid centred at the optical
axis: cell `i` of `N` has centre `(i - (N-1)/2) · pitch`, rows top-down and
columns left-right, enumerated row-major. -/
def cellCenter (N i : ℕ) (p : ℚ) : ℚ := ((i : ℚ) - ((N : ℚ) - 1) / 2) * p

/-- Cell footprint height in pixels: `(slm_param[CELL_SIZE] / d1).astype(int)`
(`slm.py` line 158). -/
def hPix (ctx : RenderCtx) : ℤ := npTrunc (ctx.slm.cellH / ctx.sensor.pitch)

/-- Cell footprint width in pixels (`slm.py` line 158). -/
def wPix (ctx : RenderCtx) : ℤ := npTrunc (ctx.slm.cellW / ctx.sensor.pitch)

/-- Row of a cell's centre pixel:
`(_center / d1 + sensor.resolution / 2).astype(int)` (`slm.py` line 171),
for the flat cell index `k` (row-major over the `nRows × nCols` grid). -/
def centerPixelRow (ctx : RenderCtx) (k : ℕ) : ℤ :=
  npTrunc (cellCenter ctx.nRows (k / ctx.nCols) ctx.slm.pitchY / ctx.sensor.pitch
    + (ctx.sensor.resH : ℚ) / 2)

/-- Column of a cell's centre pixel (`slm.py` line 171). -/
def centerPixelCol (ctx : RenderCtx) (k : ℕ) : ℤ :=
  npTrunc (cellCenter ctx.nCols (k % ctx.nCols) ctx.slm.pitchX / ctx.sensor.pitch
    + (ctx.sensor.resW : ℚ) / 2)

/-- Top row of the written box:
`_center_pixel[0] - np.floor(_height_pixel / 2).astype(int)`
(`slm.py` line 173). -/
def topRow (ctx : RenderCtx) (k : ℕ) : ℤ :=
  centerPixelRow ctx k - (hPix ctx).fdiv 2

/-- Left column of the written box:
`_center_pixel[1] + 1 - np.floor(_width_pixel / 2).astype(int)`
(`slm.py` line 174). -/
def leftCol (ctx : RenderCtx) (k : ℕ) : ℤ :=
  centerPixelCol ctx k + 1 - (wPix ctx).fdiv 2

/-- Membership of pixel `(r, c)` in the region assigned by the slice
`mask[:, top : top + h, left : left + w] = ...` (`slm.py` lines 185-191),
with Python slice clamping on each axis. -/
def cellRegion (ctx : RenderCtx) (k : ℕ) (r c : ℕ) : Prop :=
  npClamp (topRow ctx k) ctx.sensor.resH ≤ (r : ℤ) ∧
  (r : ℤ) < npClamp (topRow ctx k + hPix ctx) ctx.sensor.resH ∧
  npClamp (leftCol ctx k) ctx.sensor.resW ≤ (c : ℤ) ∧
  (c : ℤ) < npClamp (leftCol ctx k + wPix ctx) ctx.sensor.resW

instance (ctx : RenderCtx) (k r c : ℕ) : Decidable (cellRegion ctx k r c) := by
  unfold cellRegion
  infer_instance

/-- Length of the view selected by the Python slice `start : start + len` on
an axis of length `n`: the difference of the two clamped bounds, at least
0. -/
def sliceLen (start len : ℤ) (n : ℕ) : ℤ :=
  max 0 (npClamp (start + len) n - npClamp start n)

/-- Broadcast compatibility of the slice assignment of `slm.py` lines
185-191 for cell `k`: numpy assigns the fixed-shape
`(n_color_filter, _height_pixel, _width_pixel)` array
`slm_vals_flat[i] * _rect` into the clipped view, which succeeds exactly
when each spatial dimension of the right-hand side equals the view's or is
1 (the broadcasting rule); otherwise the assignment raises `ValueError` and
the function never returns.  The channel dimensions always agree. -/
def broadcastOk (ctx : RenderCtx) (k : ℕ) : Prop :=
  (sliceLen (topRow ctx k) (hPix ctx) ctx.sensor.resH = hPix ctx ∨
    hPix ctx = 1) ∧
  (sliceLen (leftCol ctx k) (wPix ctx) ctx.sensor.resW = wPix ctx ∨
    wPix ctx = 1)

instance (ctx : RenderCtx) (k : ℕ) : Decidable (broadcastOk ctx k) := by
  unfold broadcastOk
  infer_instance

/-- Every iteration of the placement loop broadcasts successfully; when
this holds, each write is the uniform value over the clipped region, so
last-write-wins over `cellRegion` is the exact loop semantics. -/
def broadcastOkAll (ctx : RenderCtx) : Prop :=
  ∀ k, k < ctx.nRows * ctx.nCols → broadcastOk ctx k

instance (ctx : RenderCtx) : Decidable (broadcastOkAll ctx) := by
  unfold broadcastOkAll
  infer_instance

/-- `slm_vals` flattened in C order (`slm_vals.reshape(-1)`, line 167; the
reshape on line 127 is the identity for a 2-D `vals`). -/
def slmValsFlat (ctx : RenderCtx) (k : ℕ) : ℚ :=
  ctx.vals (k / ctx.nCols) (k % ctx.nCols)

/-- The per-cell colour weight used in the write
`slm_vals_flat[i] * _rect`: the colour-filter row of the cell when `cf` is
not `None`, otherwise the all-ones rectangle (the monochrome branch of
lines 177-180). -/
def cellWeight (ctx : RenderCtx) : ℕ → ℕ → ℚ :=
  match (if ctx.slm.colorFilterShape.isSome then some ctx.cfw else none) with
  | some f => f
  | none => fun _ _ => 1

/-- The first `n` iterations of the placement loop (`slm.py` lines 169-191):
each iteration overwrites the cell's slice region with
`slm_vals_flat[i] * _rect`; the value at a pixel is that of the last loop
iteration whose region contains it, and 0 (the `np.zeros` initialisation,
line 166) if no region does. -/
def placeUpTo (ctx : RenderCtx) (w : ℕ → ℕ → ℚ) : ℕ → ℕ → ℕ → ℕ → ℚ
  | 0, _, _, _ => 0
  | k + 1, ch, r, c =>
      if cellRegion ctx k r c then slmValsFlat ctx k * w k ch
      else placeUpTo ctx w k ch r c

/-- The mask array after the placement loop and before quantisation. -/
def maskPre (ctx : RenderCtx) : ℕ → ℕ → ℕ → ℚ :=
  placeUpTo ctx (cellWeight ctx) (ctx.nRows * ctx.nCols)

/-- `n_color_filter = np.prod(slm_param["color_filter"].shape[:2])`
(`slm.py` line 136); the value is only reached when the key is present. -/
def nColorFilter (ctx : RenderCtx) : ℕ :=
  match ctx.slm.colorFilterShape with
  | some s => s.1 * s.2
  | none => 0

/-- The flat list of in-bounds index triples of a `nch × nr × nc` array. -/
def idxList3 (a b c : ℕ) : List (ℕ × ℕ × ℕ) :=
  (List.range a).flatMap fun x =>
    (List.range b).flatMap fun y =>
      (List.range c).map fun z => (x, y, z)

/-- `np.max(mask)` over the full `(n_color_filter, resH, resW)` array
(`slm.py` line 198). -/
def maskMax (ctx : RenderCtx) : ℚ :=
  ((idxList3 (nColorFilter ctx) ctx.sensor.resH ctx.sensor.resW).map
    fun p => maskPre ctx p.1 p.2.1 p.2.2).foldl max (maskPre ctx 0 0 0)

/-- A rendered mask image: channel count, spatial resolution, and the value
at each (channel, row, column). -/
structure MaskImage where
  nch : ℕ
  nr : ℕ
  nc : ℕ
  val : ℕ → ℕ → ℕ → FVal

/-- Embedding of `get_programmable_mask` (`slm.py` lines 101-208), numpy
path, `rotate=None`, `flipud=False`.  Line 136 reads
`slm_param["color_filter"]` unconditionally, so a parameter table without
that key raises `KeyError` before anything is rendered.  Each loop
iteration assigns the fixed-shape `slm_vals_flat[i] * _rect` into a
border-clipped slice (lines 185-191); numpy never clips the right-hand
side, so the first iteration whose rectangle does not broadcast into its
view raises `ValueError` and no mask is returned.  When every iteration
broadcasts, the loop places every cell's rectangle and the result is
normalised by its own maximum and quantised to 255 levels. -/
def get_programmable_mask (ctx : RenderCtx) : Except SlmError MaskImage :=
  match ctx.slm.colorFilterShape with
  | none => .error .keyError
  | some _ =>
      if broadcastOkAll ctx then
        .ok { nch := nColorFilter ctx
              nr := ctx.sensor.resH
              nc := ctx.sensor.resW
              val := fun ch r c => quantF (npDiv (maskPre ctx ch r c) (maskMax ctx)) }
      else .error .valueError

/-- Modelled from the spec: the optional rotation step — "optionally apply
a rigid rotation about the image center (no reshape)" — is carried out by
the external `scipy.ndimage.rotate` (`slm.py` line 206), whose resampled
values depend on that library's interpolation.  It is an abstract parameter
taking the angle and the mask's value table to a new value table on the
unchanged (`reshape=False`) grid; every theorem below holds for any such
resampler. -/
structure RotateEngine where
  rot : ℚ → (ℕ → ℕ → ℕ → FVal) → (ℕ → ℕ → ℕ → FVal)

/-- The rotation tail of `get_programmable_mask` (`slm.py` lines 201-206):
with `rotate=None` the rendered mask is returned as is; otherwise the
external resampler replaces the values on the same grid. -/
def get_programmable_mask_rot (ctx : RenderCtx) (eng : RotateEngine)
    (angle : Option ℚ) : Except SlmError MaskImage :=
  match get_programmable_mask ctx with
  | .error e => .error e
  | .ok m =>
      match angle with
      | none => .ok m
      | some a => .ok { m with val := eng.rot a m.val }

/-- The pattern-shape assertion of `set_programmable_mask`
(`slm.py` lines 68-74): the expected shape is the device's SLM shape,
prefixed with a colour axis of length 3 when the device is not monochrome;
a mismatch raises `AssertionError`.  The device table `slm_devices` is
external, so the device's shape and monochrome flag are parameters. -/
def set_programmable_mask_shape_check (patternShape : List ℕ)
    (slmShape : ℕ × ℕ) (monochrome : Bool) : Except SlmError Unit :=
  let expected : List ℕ :=
    if monochrome then [slmShape.1, slmShape.2] else [3, slmShape.1, slmShape.2]
  if patternShape = expected then .ok () else .error .assertionError

/-! ## Intensity PSF (`get_intensity_psf`, `slm.py` lines 211-279) -/

/-- A complex field sample (the entries of the wavefront arrays). -/
structure CF where
  re : ℚ
  im : ℚ
deriving DecidableEq

/-- Scaling a complex sample by a real mask value (the product
`spherical_wavefront * mask`, line 256). -/
def CF.scale (z : CF) (q : ℚ) : CF := ⟨z.re * q, z.im * q⟩

/-- `np.square(np.abs(z))` for a complex sample: exactly `re² + im²`. -/
def CF.absSq (z : CF) : ℚ := z.re ^ 2 + z.im ^ 2

/-- A real-valued multi-channel image (the `mask` input and the intensity
PSF output of `get_intensity_psf`). -/
structure RealImage where
  nch : ℕ
  nr : ℕ
  nc : ℕ
  val : ℕ → ℕ → ℕ → ℚ

/-- The external propagation routines, modelled from the spec:
`sph wv d1 dz` is the per-wavelength spherical wavefront on the sensor grid
produced by `waveprop.spherical.spherical_prop`, and
`prop u wv d1 dz` is the field returned by `waveprop.rs.angular_spectrum`
(band-limited angular-spectrum free-space propagation of `u`).  Both are
arbitrary parameters: every theorem below holds for any such routines. -/
structure PsfEngine where
  sph : ℚ → ℚ → ℚ → ℕ → ℕ → CF
  prop : (ℕ → ℕ → CF) → ℚ → ℚ → ℚ → ℕ → ℕ → CF

/-- Embedding of `get_intensity_psf` (`slm.py` lines 211-279).  With
`waveprop=True` the wavelength count must equal the mask channel count
(the `assert` on lines 241-243), and channel `i` is the angular-spectrum
propagation of `sphericalWavefront(wv i) * mask[i]`; with `waveprop=False`
the mask itself is taken as the field.  Either way the result is the
elementwise intensity `np.square(np.abs(psfs))` (lines 274-277). -/
def get_intensity_psf (mask : RealImage) (sensor : SensorSpec)
    (scene2mask mask2sensor : ℚ) (nwv : ℕ) (wv : ℕ → ℚ) (eng : PsfEngine)
    (waveprop : Bool) : Except SlmError RealImage :=
  if waveprop then
    if nwv = mask.nch then
      .ok { nch := mask.nch
            nr := mask.nr
            nc := mask.nc
            val := fun i r c =>
              CF.absSq (eng.prop
                (fun y x => (eng.sph (wv i) sensor.pitch scene2mask y x).scale
                  (mask.val i y x))
                (wv i) sensor.pitch mask2sensor r c) }
    else .error .assertionError
  else
    .ok { nch := mask.nch
          nr := mask.nr
          nc := mask.nc
          val := fun i r c => (mask.val i r c) ^ 2 }

/-! ## Data model for `lensless/io.py` -/

/-- A 4-D array in the canonical `[depth, height, width, channel]` PSF
layout (`load_psf` works on this shape after the `np.newaxis` reshapes of
lines 189-201). -/
structure Arr4 where
  d : ℕ
  h : ℕ
  w : ℕ
  c : ℕ
  val : ℕ → ℕ → ℕ → ℕ → ℚ

/-- A 3-D `[height, width, channel]` array (a raw measurement as returned
by `load_image`). -/
structure Arr3 where
  h : ℕ
  w : ℕ
  c : ℕ
  val : ℕ → ℕ → ℕ → ℚ

/-- Index set of the background region `psf[:, bg_pix[0]:bg_pix[1],
bg_pix[0]:bg_pix[1], ·]`: all depths and the (slice-clamped) corner window
on both spatial axes. -/
def bgIdx (a : Arr4) (b0 b1 : ℕ) : Finset (ℕ × ℕ × ℕ) :=
  (Finset.range a.d) ×ˢ (Finset.Ico (min b0 a.h) (min b1 a.h)) ×ˢ
    (Finset.Ico (min b0 a.w) (min b1 a.w))

/-- Per-channel background level `bg_i = np.mean(psf[:, b0:b1, b0:b1, i])`
(`io.py` line 222); a numpy mean is the sum divided by the element count.
The theorems below only use nonempty regions (an empty region would make
numpy return NaN). -/
def bgCh (a : Arr4) (b0 b1 : ℕ) (ch : ℕ) : ℚ :=
  (∑ p ∈ bgIdx a b0 b1, a.val p.1 p.2.1 p.2.2 ch) / ((bgIdx a b0 b1).card : ℚ)

/-- Grayscale background level `bg = np.mean(psf[:, b0:b1, b0:b1, :])`
(`io.py` line 215): the mean over the region and all channels. -/
def bgGray (a : Arr4) (b0 b1 : ℕ) : ℚ :=
  (∑ p ∈ bgIdx a b0 b1, ∑ ch ∈ Finset.range a.c, a.val p.1 p.2.1 p.2.2 ch) /
    (((bgIdx a b0 b1).card : ℚ) * (a.c : ℚ))

/-- The flat list of in-bounds index quadruples of a 4-D array. -/
def idxList4 (a : Arr4) : List (ℕ × ℕ × ℕ × ℕ) :=
  (List.range a.d).flatMap fun n =>
    (List.range a.h).flatMap fun y =>
      (List.range a.w).flatMap fun x =>
        (List.range a.c).map fun ch => (n, y, x, ch)

/-- `arr.max()` over a 4-D array. -/
def arrMax4 (a : Arr4) : ℚ :=
  ((idxList4 a).map fun p => a.val p.1 p.2.1 p.2.2.1 p.2.2.2).foldl max
    (a.val 0 0 0 0)

/-- The background-subtracted PSF (`io.py` lines 214-224): the global mean
for grayscale input, or the per-channel mean over the first three channels
for RGB input, is subtracted from every entry. -/
def subArr (a : Arr4) (grayscale : Bool) (b0 b1 : ℕ) : Arr4 :=
  { a with val := fun n y x ch =>
      a.val n y x ch -
        (if grayscale then bgGray a b0 b1
         else if ch < 3 then bgCh a b0 b1 ch else 0) }

/-- Background subtraction and clipping (`io.py` lines 208-227): with
`bg_pix = None` nothing happens; otherwise the background mean is
subtracted and the result is clipped to `[0, max]` by
`np.clip(psf, 0, psf.max())` (numpy's clip is `min a_max (max a_min x)`). -/
def bgSubClip (a : Arr4) (grayscale : Bool) (bgpix : Option (ℕ × ℕ)) : Arr4 :=
  match bgpix with
  | none => a
  | some (b0, b1) =>
      { a with val := fun n y x ch =>
          (min (arrMax4 (subArr a grayscale b0 b1))
            (max 0 ((subArr a grayscale b0 b1).val n y x ch))) }

/-- Length of the overlap of the source-pixel interval `[i, i+1)` with the
source-coordinate box `[y·s, (y+1)·s)` of output pixel `y`, for a scale `s`
(source size over target size). -/
def overlap (s : ℚ) (i y : ℕ) : ℚ :=
  max 0 (min ((i : ℚ) + 1) (((y : ℚ) + 1) * s) - max (i : ℚ) ((y : ℚ) * s))

/-- Modelled from the spec: `lensless.util.resize` (not part of the core
sources) — "resize/downsample to a target shape or scale factor using
area-preserving resampling".  Each output pixel is the exact area average of
the source over its preimage box; spatial axes only, depth and channel are
untouched. -/
def resize4 (a : Arr4) (th tw : ℕ) : Arr4 :=
  let sy : ℚ := (a.h : ℚ) / (th : ℚ)
  let sx : ℚ := (a.w : ℚ) / (tw : ℚ)
  { d := a.d, h := th, w := tw, c := a.c
    val := fun n y x ch =>
      (∑ i ∈ Finset.range a.h, ∑ j ∈ Finset.range a.w,
        overlap sy i y * overlap sx j x * a.val n i j ch) / (sy * sx) }

/-- Modelled from the spec: the target spatial shape of
`resize(psf, shape=shape, factor=1/downsample)` — the explicit shape when
given, otherwise the source shape scaled by the factor. -/
def resizeTarget (a : Arr4) (shape : Option (ℕ × ℕ)) (factor : ℚ) : ℕ × ℕ :=
  match shape with
  | some s => s
  | none => ((⌊(a.h : ℚ) * factor⌋).toNat, (⌊(a.w : ℚ) * factor⌋).toNat)

/-- The `single_psf` collapse (`io.py` lines 232-240): when requested and
the PSF has more than one channel, channels are summed into a single
channel; otherwise (grayscale input) it is a warned no-op. -/
def singlePsfStep (a : Arr4) (flag : Bool) : Arr4 :=
  if flag ∧ 1 < a.c then
    { d := a.d, h := a.h, w := a.w, c := 1
      val := fun n y x _ => ∑ ch ∈ Finset.range a.c, a.val n y x ch }
  else a

/-- The `load_psf` pipeline before normalisation (`io.py` lines 186-240):
cast (exact here), background subtraction and clip, resize, optional
channel collapse. -/
def load_psf_pre (a : Arr4) (grayscale : Bool) (bgpix : Option (ℕ × ℕ))
    (downsample : ℚ) (shape : Option (ℕ × ℕ)) (single : Bool) : Arr4 :=
  let b := bgSubClip a grayscale bgpix
  let t := resizeTarget b shape (1 / downsample)
  singlePsfStep (resize4 b t.1 t.2) single

/-- The background level `load_psf` returns with `return_bg=True`
(`io.py` lines 210-227, 249-250), as a per-channel function: zero when
`bg_pix` is `None`, the global mean for grayscale input, the per-channel
mean (first three channels) otherwise. -/
def load_psf_bg (a : Arr4) (grayscale : Bool) (bgpix : Option (ℕ × ℕ)) :
    ℕ → ℚ :=
  match bgpix with
  | none => fun _ => 0
  | some (b0, b1) =>
      if grayscale then fun _ => bgGray a b0 b1 else fun ch => bgCh a b0 b1 ch

/-- Sum of squares of the in-bounds entries of a 4-D array: the square of
the Euclidean norm of `arr.ravel()`. -/
def sumSq (a : Arr4) : ℚ :=
  ∑ n ∈ Finset.range a.d, ∑ y ∈ Finset.range a.h, ∑ x ∈ Finset.range a.w,
    ∑ ch ∈ Finset.range a.c, (a.val n y x ch) ^ 2

/-- The final normalisation `psf /= np.linalg.norm(psf.ravel())`
(`io.py` line 245): division by the Euclidean norm, a real number. -/
noncomputable def normArr (a : Arr4) : ℕ → ℕ → ℕ → ℕ → ℝ :=
  fun n y x ch => (a.val n y x ch : ℝ) / Real.sqrt ((sumSq a : ℚ) : ℝ)

/-- The conditioned PSF of `load_psf` with `return_float=True`: the
pre-normalisation pipeline followed by division by the flattened Euclidean
norm. -/
noncomputable def load_psf_cond (a : Arr4) (grayscale : Bool)
    (bgpix : Option (ℕ × ℕ)) (downsample : ℚ) (shape : Option (ℕ × ℕ))
    (single : Bool) : ℕ → ℕ → ℕ → ℕ → ℝ :=
  normArr (load_psf_pre a grayscale bgpix downsample shape single)

/-- The flat list of in-bounds index triples of a 3-D array. -/
def idxList3' (a : Arr3) : List (ℕ × ℕ × ℕ) :=
  (List.range a.h).flatMap fun y =>
    (List.range a.w).flatMap fun x =>
      (List.range a.c).map fun ch => (y, x, ch)

/-- `data.max()` over a 3-D array. -/
def arrMax3 (a : Arr3) : ℚ :=
  ((idxList3' a).map fun p => a.val p.1 p.2.1 p.2.2).foldl max (a.val 0 0 0)

/-- The background-subtracted measurement (`data -= bg`, `io.py` line 354). -/
def dataSub (bg : ℕ → ℚ) (data : Arr3) : Arr3 :=
  { data with val := fun y x ch => data.val y x ch - bg ch }

/-- The clipped measurement (`np.clip(data, 0, data.max())`, line 355). -/
def dataClip (bg : ℕ → ℚ) (data : Arr3) : Arr3 :=
  { data with val := fun y x ch =>
      (min (arrMax3 (dataSub bg data))
        (max 0 ((dataSub bg data).val y x ch))) }

/-- The measurement with the depth axis added (`data[np.newaxis, ...]`,
lines 357-360). -/
def data4 (bg : ℕ → ℚ) (data : Arr3) : Arr4 :=
  { d := 1, h := data.h, w := data.w, c := data.c
    val := fun _ y x ch => (dataClip bg data).val y x ch }

/-- The measurement-conditioning pipeline of `load_data` before
normalisation (`io.py` lines 350-364): subtract the PSF's background,
clip to `[0, max]`, add the depth axis, and resize to the PSF's shape
whenever the shapes differ. -/
def load_data_pre (psfPre : Arr4) (bg : ℕ → ℚ) (data : Arr3) : Arr4 :=
  if ((data4 bg data).d, (data4 bg data).h, (data4 bg data).w,
      (data4 bg data).c) = (psfPre.d, psfPre.h, psfPre.w, psfPre.c) then
    data4 bg data
  else resize4 (data4 bg data) psfPre.h psfPre.w

/-- The conditioned PSF and measurement returned by `load_data`
(`io.py` lines 334-365): the PSF through `load_psf` (float, with
background), the measurement through background subtraction, clipping,
reshaping/resizing to the PSF's shape, and norm normalisation. -/
noncomputable def load_data_cond (psfIn : Arr4) (data : Arr3)
    (grayscale : Bool) (bgpix : Option (ℕ × ℕ)) (downsample : ℚ)
    (shape : Option (ℕ × ℕ)) (single : Bool) :
    (ℕ → ℕ → ℕ → ℕ → ℝ) × Arr4 × (ℕ → ℕ → ℕ → ℕ → ℝ) × Arr4 :=
  let psfPre := load_psf_pre psfIn grayscale bgpix downsample shape single
  let bg := load_psf_bg psfIn grayscale bgpix
  let dataPre := load_data_pre psfPre bg data
  (normArr psfPre, psfPre, normArr dataPre, dataPre)

/-- Sum of squares of the entries of a real-valued array over given bounds
(the squared Euclidean norm of the conditioned arrays). -/
noncomputable def sumSqR (f : ℕ → ℕ → ℕ → ℕ → ℝ) (d h w c : ℕ) : ℝ :=
  ∑ n ∈ Finset.range d, ∑ y ∈ Finset.range h, ∑ x ∈ Finset.range w,
    ∑ ch ∈ Finset.range c, (f n y x ch) ^ 2

/-! ## Lemmas about the placement loop -/

theorem placeUpTo_of_not_mem (ctx : RenderCtx) (w : ℕ → ℕ → ℚ) (n ch r c : ℕ)
    (h : ∀ k, k < n → ¬ cellRegion ctx k r c) :
    placeUpTo ctx w n ch r c = 0 := by
  induction n with
  | zero => rfl
  | succ m ih =>
      unfold placeUpTo
      rw [if_neg (h m (Nat.lt_succ_self m))]
      exact ih fun k hk => h k (Nat.lt_succ_of_lt hk)

theorem placeUpTo_of_mem_last (ctx : RenderCtx) (w : ℕ → ℕ → ℚ)
    (n k ch r c : ℕ) (hk : k < n) (hmem : cellRegion ctx k r c)
    (hafter : ∀ m, k < m → m < n → ¬ cellRegion ctx m r c) :
    placeUpTo ctx w n ch r c = slmValsFlat ctx k * w k ch := by
  induction n with
  | zero => omega
  | succ m ih =>
      unfold placeUpTo
      rcases Nat.lt_succ_iff_lt_or_eq.mp hk with hlt | rfl
      · rw [if_neg (hafter m hlt (Nat.lt_succ_self m))]
        exact ih hlt fun j hj1 hj2 => hafter j hj1 (Nat.lt_succ_of_lt hj2)
      · rw [if_pos hmem]

theorem placeUpTo_ne_zero (ctx : RenderCtx) (w : ℕ → ℕ → ℚ) {n ch r c : ℕ}
    (h : placeUpTo ctx w n ch r c ≠ 0) :
    ∃ k, k < n ∧ cellRegion ctx k r c ∧ slmValsFlat ctx k * w k ch ≠ 0 := by
  induction n with
  | zero => exact absurd rfl h
  | succ m ih =>
      unfold placeUpTo at h
      by_cases hm : cellRegion ctx m r c
      · rw [if_pos hm] at h
        exact ⟨m, Nat.lt_succ_self m, hm, h⟩
      · rw [if_neg hm] at h
        obtain ⟨k, hk, hmem, hne⟩ := ih h
        exact ⟨k, Nat.lt_succ_of_lt hk, hmem, hne⟩

theorem placeUpTo_nonneg (ctx : RenderCtx) (w : ℕ → ℕ → ℚ) (n ch r c : ℕ)
    (h : ∀ k ch', 0 ≤ slmValsFlat ctx k * w k ch') :
    0 ≤ placeUpTo ctx w n ch r c := by
  induction n with
  | zero => exact le_refl 0
  | succ m ih =>
      unfold placeUpTo
      split
      · exact h m ch
      · exact ih

theorem mem_idxList3 {a b c : ℕ} {p : ℕ × ℕ × ℕ} :
    p ∈ idxList3 a b c ↔ p.1 < a ∧ p.2.1 < b ∧ p.2.2 < c := by
  obtain ⟨x, y, z⟩ := p
  simp only [idxList3, List.mem_flatMap, List.mem_map, List.mem_range]
  constructor
  · rintro ⟨i, hi, j, hj, k, hk, h⟩
    simp only [Prod.mk.injEq] at h
    obtain ⟨rfl, rfl, rfl⟩ := h
    exact ⟨hi, hj, hk⟩
  · rintro ⟨hx, hy, hz⟩
    exact ⟨x, hx, y, hy, z, hz, rfl⟩

theorem le_maskMax (ctx : RenderCtx) {ch r c : ℕ} (hch : ch < nColorFilter ctx)
    (hr : r < ctx.sensor.resH) (hc : c < ctx.sensor.resW) :
    maskPre ctx ch r c ≤ maskMax ctx := by
  refine mem_le_foldl_max ?_ _
  exact List.mem_map.mpr ⟨(ch, r, c), mem_idxList3.mpr ⟨hch, hr, hc⟩, rfl⟩

theorem seed_le_maskMax (ctx : RenderCtx) : maskPre ctx 0 0 0 ≤ maskMax ctx :=
  le_foldl_max _ _

theorem maskMax_le (ctx : RenderCtx) {B : ℚ}
    (h : ∀ ch r c, maskPre ctx ch r c ≤ B) : maskMax ctx ≤ B := by
  refine foldl_max_le (h 0 0 0) ?_
  intro x hx
  obtain ⟨p, _, rfl⟩ := List.mem_map.mp hx
  exact h p.1 p.2.1 p.2.2

theorem placeUpTo_of_vals_zero (ctx : RenderCtx) (w : ℕ → ℕ → ℚ)
    (hv : ∀ i j, ctx.vals i j = 0) (n ch r c : ℕ) :
    placeUpTo ctx w n ch r c = 0 := by
  induction n with
  | zero => rfl
  | succ m ih =>
      unfold placeUpTo
      rw [show slmValsFlat ctx m = 0 from hv _ _, zero_mul]
      split
      · rfl
      · exact ih

theorem maskMax_eq_zero_of_pre_zero (ctx : RenderCtx)
    (h : ∀ ch r c, maskPre ctx ch r c = 0) : maskMax ctx = 0 := by
  refine le_antisymm (maskMax_le ctx fun ch r c => le_of_eq (h ch r c)) ?_
  have := seed_le_maskMax ctx
  rwa [h 0 0 0] at this

theorem npDiv_zero_zero : npDiv 0 0 = FVal.nan := by
  unfold npDiv
  norm_num

theorem npClamp_of_nonneg {x : ℤ} (n : ℕ) (h : 0 ≤ x) :
    npClamp x n = min x n := by
  unfold npClamp
  rw [if_neg (not_lt.mpr h)]

theorem sliceLen_of_fit {start len : ℤ} {n : ℕ} (h0 : 0 ≤ start)
    (hl : 0 ≤ len) (h1 : start + len ≤ (n : ℤ)) :
    sliceLen start len n = len := by
  unfold sliceLen
  rw [npClamp_of_nonneg n h0, @npClamp_of_nonneg (start + len) n (by omega),
    min_eq_left (by omega : start ≤ (n : ℤ)), min_eq_left h1,
    add_sub_cancel_left]
  exact max_eq_right hl

theorem sliceLen_zero (start : ℤ) (n : ℕ) : sliceLen start 0 n = 0 := by
  unfold sliceLen
  rw [add_zero, sub_self]
  exact max_eq_left le_rfl

/-- A geometry whose computed footprint is a single pixel in each dimension
broadcasts at every cell: a length-1 axis of the right-hand side broadcasts
into any view. -/
theorem broadcastOkAll_of_unit (ctx : RenderCtx) (hh : hPix ctx = 1)
    (hw : wPix ctx = 1) : broadcastOkAll ctx := by
  intro k _
  unfold broadcastOk
  exact ⟨Or.inr hh, Or.inr hw⟩

/-- With the colour-filter key present, `get_programmable_mask` reduces to
the broadcast test on the placement loop. -/
theorem get_programmable_mask_some (ctx : RenderCtx) (s : ℕ × ℕ)
    (hcf : ctx.slm.colorFilterShape = some s) :
    get_programmable_mask ctx =
      if broadcastOkAll ctx then
        .ok { nch := nColorFilter ctx, nr := ctx.sensor.resH,
              nc := ctx.sensor.resW,
              val := fun ch r c =>
                quantF (npDiv (maskPre ctx ch r c) (maskMax ctx)) }
      else .error .valueError := by
  unfold get_programmable_mask
  rw [hcf]

theorem get_programmable_mask_ok (ctx : RenderCtx) (s : ℕ × ℕ)
    (hcf : ctx.slm.colorFilterShape = some s) (hb : broadcastOkAll ctx) :
    get_programmable_mask ctx =
      .ok { nch := nColorFilter ctx, nr := ctx.sensor.resH,
            nc := ctx.sensor.resW,
            val := fun ch r c =>
              quantF (npDiv (maskPre ctx ch r c) (maskMax ctx)) } := by
  rw [get_programmable_mask_some ctx s hcf, if_pos hb]

theorem get_programmable_mask_valueError (ctx : RenderCtx) (s : ℕ × ℕ)
    (hcf : ctx.slm.colorFilterShape = some s) (hb : ¬ broadcastOkAll ctx) :
    get_programmable_mask ctx = .error .valueError := by
  rw [get_programmable_mask_some ctx s hcf, if_neg hb]

theorem cellRegion_empty_of_zero_footprint (ctx : RenderCtx)
    (h : hPix ctx = 0 ∨ wPix ctx = 0) (k r c : ℕ) : ¬ cellRegion ctx k r c := by
  rintro ⟨h1, h2, h3, h4⟩
  rcases h with h0 | h0
  · rw [h0, add_zero] at h2
    omega
  · rw [h0, add_zero] at h4
    omega

/-- With a parameter table containing a colour filter and a placement loop
whose every slice assignment broadcasts, `get_programmable_mask` returns a
mask; when additionally the computed cell footprint is zero pixels, every
slice written by the loop is empty, the mask stays all-zero, and the final
normalisation `mask / np.max(mask)` turns every entry into NaN. -/
theorem mask_ok_of_zero_footprint (ctx : RenderCtx) (s : ℕ × ℕ)
    (hcf : ctx.slm.colorFilterShape = some s) (hb : broadcastOkAll ctx)
    (h : hPix ctx = 0 ∨ wPix ctx = 0) :
    get_programmable_mask ctx =
      .ok { nch := nColorFilter ctx, nr := ctx.sensor.resH,
            nc := ctx.sensor.resW, val := fun _ _ _ => FVal.nan } := by
  have hpre : ∀ ch r c, maskPre ctx ch r c = 0 := fun ch r c =>
    placeUpTo_of_not_mem ctx _ _ ch r c
      (fun k _ => cellRegion_empty_of_zero_footprint ctx h k r c)
  rw [get_programmable_mask_ok ctx s hcf hb]
  simp only [Except.ok.injEq, MaskImage.mk.injEq, true_and]
  funext ch r c
  rw [hpre ch r c, maskMax_eq_zero_of_pre_zero ctx hpre, npDiv_zero_zero]
  rfl

/-! ## The Scenario A geometry -/

/-- The Scenario A geometry of the specification with pattern `v`:
8×8 controllable cells, a 64×64-pixel sensor with unit pitch, cell size and
cell pitch of 8 pixels (each cell maps to an 8×8 block), and a trivial 1×1
colour filter of weight 1. -/
def ctxAWith (v : ℕ → ℕ → ℚ) : RenderCtx :=
  ⟨8, 8, v, ⟨64, 64, 1⟩, ⟨8, 8, 8, 8, some (1, 1)⟩, fun _ _ => 1⟩

/-- Scenario A: the pattern whose single hot cell is (0, 0) with value 1. -/
def ctxA : RenderCtx := ctxAWith fun i j => if i = 0 ∧ j = 0 then 1 else 0

theorem ctxAWith_wPix (v : ℕ → ℕ → ℚ) : wPix (ctxAWith v) = 8 := by
  unfold wPix
  rw [show (ctxAWith v).slm.cellW / (ctxAWith v).sensor.pitch =
    (((8 : ℤ) : ℚ)) by norm_num [ctxAWith], npTrunc_intCast]

theorem ctxAWith_centerCol (v : ℕ → ℕ → ℚ) (k : ℕ) :
    centerPixelCol (ctxAWith v) k = 8 * ((k % 8 : ℕ) : ℤ) + 4 := by
  unfold centerPixelCol
  rw [show k % (ctxAWith v).nCols = k % 8 from rfl]
  generalize k % 8 = j
  rw [show cellCenter (ctxAWith v).nCols j (ctxAWith v).slm.pitchX /
        (ctxAWith v).sensor.pitch + ((ctxAWith v).sensor.resW : ℚ) / 2 =
        ((8 * (j : ℤ) + 4 : ℤ) : ℚ) by
      unfold cellCenter
      norm_num [ctxAWith]
      ring,
    npTrunc_intCast]

theorem ctxAWith_left (v : ℕ → ℕ → ℚ) (k : ℕ) :
    leftCol (ctxAWith v) k = 8 * ((k % 8 : ℕ) : ℤ) + 1 := by
  unfold leftCol
  rw [ctxAWith_centerCol, ctxAWith_wPix]
  rw [show Int.fdiv 8 2 = 4 by decide]
  ring

/-- The clipped view of the slice `57 : 57 + 8` on a 64-pixel axis is 7
pixels wide. -/
theorem sliceLen_clip_57 : sliceLen 57 8 64 = 7 := by
  unfold sliceLen
  rw [@npClamp_of_nonneg (57 + 8) 64 (by norm_num),
    @npClamp_of_nonneg 57 64 (by norm_num)]
  norm_num [min_def, max_def]

/-- On the Scenario A geometry the rightmost cell column (flat index 7 in
the first row) has its 8-wide rectangle assigned into a border-clipped
7-wide view: the `+ 1` column offset of line 174 puts its slice at columns
57-64.  numpy therefore raises `ValueError`, whatever the pattern. -/
theorem ctxAWith_not_broadcast (v : ℕ → ℕ → ℚ) :
    ¬ broadcastOkAll (ctxAWith v) := by
  intro h
  have h7 := h 7 (by exact (by norm_num : (7 : ℕ) < 64))
  unfold broadcastOk at h7
  obtain ⟨-, hcol⟩ := h7
  rcases hcol with hl | h1
  · rw [ctxAWith_left, ctxAWith_wPix,
      show (ctxAWith v).sensor.resW = 64 from rfl] at hl
    norm_num at hl
    rw [sliceLen_clip_57] at hl
    exact absurd hl (by norm_num)
  · rw [ctxAWith_wPix v] at h1
    exact absurd h1 (by norm_num)

theorem ctxAWith_value_error (v : ℕ → ℕ → ℚ) :
    get_programmable_mask (ctxAWith v) = .error .valueError :=
  get_programmable_mask_valueError (ctxAWith v) (1, 1) rfl
    (ctxAWith_not_broadcast v)

/-! ## Claims C9, C10, C4 -/

/-- Claim C9: for every device parameter set lacking a colour-filter table,
`get_programmable_mask` raises `KeyError` before rendering, because
`slm_param["color_filter"]` (line 136) is read unconditionally before the
presence check of line 140; the monochrome branch is therefore unreachable
and no mask is ever produced for such parameters. -/
theorem monochrome_key_error (ctx : RenderCtx)
    (h : ctx.slm.colorFilterShape = none) :
    get_programmable_mask ctx = .error .keyError := by
  unfold get_programmable_mask
  rw [h]

/-- Witness for C9 at a concrete monochrome parameter set. -/
theorem monochrome_key_error_witness :
    (⟨1, 1, fun _ _ => 0, ⟨2, 2, 1⟩, ⟨1, 1, 1, 1, none⟩, fun _ _ => 1⟩ :
      RenderCtx).slm.colorFilterShape = none ∧
    get_programmable_mask
      ⟨1, 1, fun _ _ => 0, ⟨2, 2, 1⟩, ⟨1, 1, 1, 1, none⟩, fun _ _ => 1⟩ =
      .error .keyError :=
  ⟨rfl, monochrome_key_error _ rfl⟩

/-- With an all-zero pattern and a placement loop whose every slice
assignment broadcasts, every write of the loop is zero, the maximum is
zero, and the unguarded normalisation makes the whole mask NaN. -/
theorem mask_all_nan_of_vals_zero (ctx : RenderCtx) (s : ℕ × ℕ)
    (hcf : ctx.slm.colorFilterShape = some s) (hb : broadcastOkAll ctx)
    (hv : ∀ i j, ctx.vals i j = 0) :
    get_programmable_mask ctx =
      .ok { nch := nColorFilter ctx, nr := ctx.sensor.resH,
            nc := ctx.sensor.resW, val := fun _ _ _ => FVal.nan } := by
  have hpre : ∀ ch r c, maskPre ctx ch r c = 0 := fun ch r c =>
    placeUpTo_of_vals_zero ctx _ hv _ ch r c
  rw [get_programmable_mask_ok ctx s hcf hb]
  simp only [Except.ok.injEq, MaskImage.mk.injEq, true_and]
  funext ch r c
  rw [hpre ch r c, maskMax_eq_zero_of_pre_zero ctx hpre, npDiv_zero_zero]
  rfl

/-- Claim C10, amended: for every all-zero input pattern on a geometry
whose placement-loop slice assignments all broadcast (no cell footprint is
clipped at the sensor border), `get_programmable_mask` divides the all-zero
mask by its maximum 0 without a guard (`mask = mask / np.max(mask)`, line
198) and returns an array of NaN values instead of raising an error.  The
NaN outcome is not universal: on a geometry with a clipped footprint the
slice assignment itself raises `ValueError` before the division is
reached. -/
theorem zero_pattern_nan_mask (ctx : RenderCtx) (s : ℕ × ℕ)
    (hcf : ctx.slm.colorFilterShape = some s) (hb : broadcastOkAll ctx)
    (hv : ∀ i j, ctx.vals i j = 0) :
    get_programmable_mask ctx =
      .ok { nch := nColorFilter ctx, nr := ctx.sensor.resH,
            nc := ctx.sensor.resW, val := fun _ _ _ => FVal.nan } :=
  mask_all_nan_of_vals_zero ctx s hcf hb hv

/-- A concrete all-zero 2×2-cell pattern on a 4×4 sensor whose 1×1-pixel
cell footprints never clip. -/
def c10Ctx : RenderCtx :=
  ⟨2, 2, fun _ _ => 0, ⟨4, 4, 1⟩, ⟨1, 1, 1, 1, some (1, 1)⟩, fun _ _ => 1⟩

theorem c10Ctx_hPix : hPix c10Ctx = 1 := by
  show npTrunc ((1 : ℚ) / 1) = 1
  norm_num [npTrunc]

theorem c10Ctx_wPix : wPix c10Ctx = 1 := by
  show npTrunc ((1 : ℚ) / 1) = 1
  norm_num [npTrunc]

/-- Witness for the amended C10 at a concrete all-zero 2×2-cell pattern on
a 4×4 sensor. -/
theorem zero_pattern_nan_mask_witness :
    broadcastOkAll c10Ctx ∧ (∀ i j, c10Ctx.vals i j = 0) ∧
    get_programmable_mask c10Ctx =
      .ok { nch := 1, nr := 4, nc := 4, val := fun _ _ _ => FVal.nan } :=
  ⟨broadcastOkAll_of_unit c10Ctx c10Ctx_hPix c10Ctx_wPix, fun _ _ => rfl,
    zero_pattern_nan_mask c10Ctx (1, 1) rfl
      (broadcastOkAll_of_unit c10Ctx c10Ctx_hPix c10Ctx_wPix)
      fun _ _ => rfl⟩

/-- Claim C10 counterexample: at the Scenario-A geometry with the all-zero
pattern, the rightmost cell column's clipped slice assignment raises a
broadcast `ValueError` before `np.max` is ever reached, so the render
raises an error instead of returning a NaN mask. -/
theorem zero_pattern_value_error_cex :
    (∀ i j, (ctxAWith fun _ _ => 0).vals i j = 0) ∧
    get_programmable_mask (ctxAWith fun _ _ => 0) = .error .valueError :=
  ⟨fun _ _ => rfl, ctxAWith_value_error _⟩

/-- A geometry whose computed cell footprint collapses to zero pixels:
a 1×1-cell device whose physical cell size (1/2) is smaller than the sensor
pixel pitch (1), so `(CELL_SIZE / d1).astype(int) = 0`. -/
def zeroFootprintCtx : RenderCtx :=
  ⟨1, 1, fun _ _ => 1, ⟨2, 2, 1⟩, ⟨1/2, 1/2, 1, 1, some (1, 1)⟩, fun _ _ => 1⟩

theorem zeroFootprintCtx_hPix : hPix zeroFootprintCtx = 0 := by
  show npTrunc ((1/2 : ℚ) / 1) = 0
  exact npTrunc_of_lt_one (by norm_num) (by norm_num)

theorem zeroFootprintCtx_wPix : wPix zeroFootprintCtx = 0 := by
  show npTrunc ((1/2 : ℚ) / 1) = 0
  exact npTrunc_of_lt_one (by norm_num) (by norm_num)

/-- With both footprint dimensions zero, every slice assignment writes an
empty `(nch, 0, 0)` rectangle into an empty view, which broadcasts. -/
theorem zeroFootprintCtx_broadcast : broadcastOkAll zeroFootprintCtx := by
  intro k _
  unfold broadcastOk
  refine ⟨Or.inl ?_, Or.inl ?_⟩
  · rw [zeroFootprintCtx_hPix]
    exact sliceLen_zero _ _
  · rw [zeroFootprintCtx_wPix]
    exact sliceLen_zero _ _

/-- Claim C4 counterexample: at a geometry whose computed cell footprint is
zero pixels, `get_programmable_mask` raises no error at all — it returns a
mask — refuting the claim that a `GeometryError` is raised and no mask is
returned. -/
theorem zero_footprint_no_error_cex :
    hPix zeroFootprintCtx = 0 ∧
    ∃ m, get_programmable_mask zeroFootprintCtx = .ok m :=
  ⟨zeroFootprintCtx_hPix,
    ⟨_, mask_ok_of_zero_footprint zeroFootprintCtx (1, 1) rfl
      zeroFootprintCtx_broadcast (Or.inl zeroFootprintCtx_hPix)⟩⟩

/-- Claim C4, amended: `get_programmable_mask` performs neither validation
and defines neither error class: when a computed cell footprint collapses
to zero pixels and the loop's slice assignments broadcast (as they do
whenever both footprint dimensions are zero, every slice being empty), it
raises no error and returns a mask whose every entry is NaN (the mask
stays all-zero and the unguarded normalisation divides 0 by 0).  The only
error the loop can raise is the broadcast `ValueError` of a clipped
fixed-size assignment — e.g. a zero-height footprint whose nonzero-width
slice is border-clipped — not a footprint check.  The pattern-shape
validation lives in `set_programmable_mask` (lines 68-74), which raises
`AssertionError` exactly when the pattern shape differs from the device's
expected controllable-region shape (with a colour axis of length 3 for
non-monochrome devices). -/
theorem render_shape_and_footprint_checks :
    (∀ (ctx : RenderCtx) (s : ℕ × ℕ), ctx.slm.colorFilterShape = some s →
      broadcastOkAll ctx → (hPix ctx = 0 ∨ wPix ctx = 0) →
      get_programmable_mask ctx =
        .ok { nch := nColorFilter ctx, nr := ctx.sensor.resH,
              nc := ctx.sensor.resW, val := fun _ _ _ => FVal.nan }) ∧
    (∀ (ps : List ℕ) (ss : ℕ × ℕ) (mono : Bool),
      ps ≠ (if mono then [ss.1, ss.2] else [3, ss.1, ss.2]) →
      set_programmable_mask_shape_check ps ss mono = .error .assertionError) ∧
    (∀ (ps : List ℕ) (ss : ℕ × ℕ) (mono : Bool),
      ps = (if mono then [ss.1, ss.2] else [3, ss.1, ss.2]) →
      set_programmable_mask_shape_check ps ss mono = .ok ()) := by
  refine ⟨mask_ok_of_zero_footprint, ?_, ?_⟩
  · intro ps ss mono hne
    unfold set_programmable_mask_shape_check
    rw [if_neg hne]
  · intro ps ss mono heq
    unfold set_programmable_mask_shape_check
    rw [if_pos heq]

/-- Witness for the amended C4 at concrete inputs: the zero-footprint
geometry renders without error, and the shape check of
`set_programmable_mask` rejects a wrong shape and accepts the right one. -/
theorem render_shape_and_footprint_checks_witness :
    hPix zeroFootprintCtx = 0 ∧
    get_programmable_mask zeroFootprintCtx =
      .ok { nch := 1, nr := 2, nc := 2, val := fun _ _ _ => FVal.nan } ∧
    set_programmable_mask_shape_check [3, 2, 2] (2, 2) true =
      .error .assertionError ∧
    set_programmable_mask_shape_check [2, 2] (2, 2) true = .ok () :=
  ⟨zeroFootprintCtx_hPix,
    render_shape_and_footprint_checks.1 zeroFootprintCtx (1, 1) rfl
      zeroFootprintCtx_broadcast (Or.inl zeroFootprintCtx_hPix),
    render_shape_and_footprint_checks.2.1 [3, 2, 2] (2, 2) true (by decide),
    render_shape_and_footprint_checks.2.2 [2, 2] (2, 2) true (by decide)⟩

/-! ## Claim C3: value range, quantisation grid, and output shape -/

theorem npClamp_nonneg (x : ℤ) (n : ℕ) : 0 ≤ npClamp x n := by
  unfold npClamp
  split
  · exact le_max_right _ _
  · rename_i h
    push_neg at h
    exact le_min h (by positivity)

theorem npClamp_le_n (x : ℤ) (n : ℕ) : npClamp x n ≤ n := by
  unfold npClamp
  split
  · exact max_le (by omega) (by positivity)
  · exact min_le_right _ _

theorem not_cellRegion_of_oob (ctx : RenderCtx) (k r c : ℕ)
    (h : ctx.sensor.resH ≤ r ∨ ctx.sensor.resW ≤ c) :
    ¬ cellRegion ctx k r c := by
  rintro ⟨_, h2, _, h4⟩
  rcases h with hr | hc
  · have := npClamp_le_n (topRow ctx k + hPix ctx) ctx.sensor.resH
    omega
  · have := npClamp_le_n (leftCol ctx k + wPix ctx) ctx.sensor.resW
    omega

theorem cellWeight_eq_cfw (ctx : RenderCtx) (s : ℕ × ℕ)
    (hcf : ctx.slm.colorFilterShape = some s) : cellWeight ctx = ctx.cfw := by
  unfold cellWeight
  rw [hcf]
  rfl

theorem maskPre_nonneg (ctx : RenderCtx) (s : ℕ × ℕ)
    (hcf : ctx.slm.colorFilterShape = some s)
    (hv : ∀ i j, 0 ≤ ctx.vals i j) (hw : ∀ k ch, 0 ≤ ctx.cfw k ch)
    (ch r c : ℕ) : 0 ≤ maskPre ctx ch r c := by
  unfold maskPre
  rw [cellWeight_eq_cfw ctx s hcf]
  exact placeUpTo_nonneg ctx _ _ ch r c fun k ch' =>
    mul_nonneg (hv _ _) (hw _ _)

/-- Claim C3, amended: for every geometry whose parameter table has a colour
filter, every in-range (non-negative) pattern and non-negative colour-filter
weights, whenever the rendered maximum is positive (in particular the
pattern is not all-zero) and every placement-loop slice assignment
broadcasts (no cell footprint is clipped at the sensor border), the output
of `get_programmable_mask` without rotation has per-channel spatial shape
exactly the sensor resolution and every in-bounds entry is a finite value
`k/255` with `0 ≤ k ≤ 255` — in particular non-negative and on the
256-level grid; and with the optional rotation requested the output still
has exactly the sensor-resolution per-channel shape (the external
`scipy.ndimage.rotate` is called with `reshape=False`), though its values
are those of the external interpolation, to which the 256-level statement
does not extend. -/
theorem render_nonneg_quantized_shape (ctx : RenderCtx) (s : ℕ × ℕ)
    (hcf : ctx.slm.colorFilterShape = some s)
    (hv : ∀ i j, 0 ≤ ctx.vals i j) (hw : ∀ k ch, 0 ≤ ctx.cfw k ch)
    (hmx : 0 < maskMax ctx) (hb : broadcastOkAll ctx) :
    (∃ m, get_programmable_mask ctx = .ok m ∧
      m.nch = nColorFilter ctx ∧ m.nr = ctx.sensor.resH ∧
      m.nc = ctx.sensor.resW ∧
      ∀ ch r c, ch < m.nch → r < m.nr → c < m.nc →
        ∃ k : ℕ, k ≤ 255 ∧ m.val ch r c = .fin ((k : ℚ) / 255) ∧
          0 ≤ ((k : ℚ) / 255)) ∧
    (∀ (eng : RotateEngine) (angle : Option ℚ),
      ∃ m, get_programmable_mask_rot ctx eng angle = .ok m ∧
        m.nch = nColorFilter ctx ∧ m.nr = ctx.sensor.resH ∧
        m.nc = ctx.sensor.resW) := by
  refine ⟨⟨{ nch := nColorFilter ctx, nr := ctx.sensor.resH,
             nc := ctx.sensor.resW,
             val := fun ch r c =>
               quantF (npDiv (maskPre ctx ch r c) (maskMax ctx)) },
           ?_, rfl, rfl, rfl, ?_⟩, ?_⟩
  · exact get_programmable_mask_ok ctx s hcf hb
  · intro ch r c hch hr hc
    have hpre0 : 0 ≤ maskPre ctx ch r c := maskPre_nonneg ctx s hcf hv hw ch r c
    have hprem : maskPre ctx ch r c ≤ maskMax ctx := le_maskMax ctx hch hr hc
    have hq0 : 0 ≤ maskPre ctx ch r c / maskMax ctx := by positivity
    have hq1 : maskPre ctx ch r c / maskMax ctx ≤ 1 :=
      (div_le_one hmx).mpr hprem
    have hr0 : 0 ≤ npRound (maskPre ctx ch r c / maskMax ctx * 255) :=
      npRound_nonneg (by positivity)
    have hr255 : npRound (maskPre ctx ch r c / maskMax ctx * 255) ≤ 255 :=
      npRound_le (by push_cast; nlinarith)
    refine ⟨(npRound (maskPre ctx ch r c / maskMax ctx * 255)).toNat, ?_, ?_, ?_⟩
    · omega
    · show quantF (npDiv (maskPre ctx ch r c) (maskMax ctx)) = _
      unfold npDiv
      rw [if_neg (ne_of_gt hmx), quantF]
      congr 1
      congr 1
      exact_mod_cast (Int.toNat_of_nonneg hr0).symm
    · positivity
  · intro eng angle
    have hok := get_programmable_mask_ok ctx s hcf hb
    unfold get_programmable_mask_rot
    rw [hok]
    cases angle with
    | none => exact ⟨_, rfl, rfl, rfl, rfl⟩
    | some a => exact ⟨_, rfl, rfl, rfl, rfl⟩

/-- A concrete 1×1-cell geometry on a 4×4 sensor with the constant-1
pattern and trivial colour filter: its single cell writes pixel (2, 3), so
the rendered maximum is positive. -/
def quantCtx : RenderCtx :=
  ⟨1, 1, fun _ _ => 1, ⟨4, 4, 1⟩, ⟨1, 1, 1, 1, some (1, 1)⟩, fun _ _ => 1⟩

theorem quantCtx_hPix : hPix quantCtx = 1 := by
  show npTrunc ((1 : ℚ) / 1) = 1
  norm_num [npTrunc]

theorem quantCtx_wPix : wPix quantCtx = 1 := by
  show npTrunc ((1 : ℚ) / 1) = 1
  norm_num [npTrunc]

theorem quantCtx_top : topRow quantCtx 0 = 2 := by
  have hcr : centerPixelRow quantCtx 0 = 2 := by
    show npTrunc (cellCenter 1 (0 / 1) 1 / 1 + (4 : ℚ) / 2) = 2
    norm_num [cellCenter, npTrunc]
  unfold topRow
  rw [hcr, quantCtx_hPix]
  decide

theorem quantCtx_left : leftCol quantCtx 0 = 3 := by
  have hcc : centerPixelCol quantCtx 0 = 2 := by
    show npTrunc (cellCenter 1 (0 % 1) 1 / 1 + (4 : ℚ) / 2) = 2
    norm_num [cellCenter, npTrunc]
  unfold leftCol
  rw [hcc, quantCtx_wPix]
  decide

theorem quantCtx_region : cellRegion quantCtx 0 2 3 := by
  unfold cellRegion
  rw [quantCtx_top, quantCtx_left, quantCtx_hPix, quantCtx_wPix]
  decide

theorem quantCtx_not_region : ¬ cellRegion quantCtx 0 0 0 := by
  unfold cellRegion
  rw [quantCtx_top, quantCtx_left, quantCtx_hPix, quantCtx_wPix]
  decide

theorem quantCtx_broadcast : broadcastOkAll quantCtx :=
  broadcastOkAll_of_unit quantCtx quantCtx_hPix quantCtx_wPix

theorem quantCtx_max_pos : 0 < maskMax quantCtx := by
  have hpre : maskPre quantCtx 0 2 3 = 1 := by
    unfold maskPre
    rw [cellWeight_eq_cfw quantCtx (1, 1) rfl]
    show placeUpTo quantCtx quantCtx.cfw (1 * 1) 0 2 3 = 1
    have h1 := placeUpTo_of_mem_last quantCtx quantCtx.cfw (1 * 1) 0 0 2 3
      (by norm_num) quantCtx_region (fun m hm1 hm2 => False.elim (by omega))
    rw [h1]
    norm_num [slmValsFlat, quantCtx]
  have hle : maskPre quantCtx 0 2 3 ≤ maskMax quantCtx :=
    le_maskMax quantCtx (by norm_num [nColorFilter, quantCtx])
      (by norm_num [quantCtx]) (by norm_num [quantCtx])
  rw [hpre] at hle
  linarith

/-- Witness for the amended C3 at the concrete geometry `quantCtx`. -/
theorem render_nonneg_quantized_shape_witness :
    0 < maskMax quantCtx ∧ broadcastOkAll quantCtx ∧
    ((∃ m, get_programmable_mask quantCtx = .ok m ∧
      m.nch = nColorFilter quantCtx ∧ m.nr = quantCtx.sensor.resH ∧
      m.nc = quantCtx.sensor.resW ∧
      ∀ ch r c, ch < m.nch → r < m.nr → c < m.nc →
        ∃ k : ℕ, k ≤ 255 ∧ m.val ch r c = .fin ((k : ℚ) / 255) ∧
          0 ≤ ((k : ℚ) / 255)) ∧
    (∀ (eng : RotateEngine) (angle : Option ℚ),
      ∃ m, get_programmable_mask_rot quantCtx eng angle = .ok m ∧
        m.nch = nColorFilter quantCtx ∧ m.nr = quantCtx.sensor.resH ∧
        m.nc = quantCtx.sensor.resW)) :=
  ⟨quantCtx_max_pos, quantCtx_broadcast,
    render_nonneg_quantized_shape quantCtx (1, 1) rfl
      (fun _ _ => by norm_num [quantCtx]) (fun _ _ => by norm_num [quantCtx])
      quantCtx_max_pos quantCtx_broadcast⟩

/-- A valid geometry with an in-range all-zero control pattern: a 1×1-cell
device on a 2×2 sensor with unit pitch and a trivial colour filter. -/
def zeroPatternCtx : RenderCtx :=
  ⟨1, 1, fun _ _ => 0, ⟨2, 2, 1⟩, ⟨1, 1, 1, 1, some (1, 1)⟩, fun _ _ => 1⟩

theorem zeroPatternCtx_hPix : hPix zeroPatternCtx = 1 := by
  show npTrunc ((1 : ℚ) / 1) = 1
  norm_num [npTrunc]

theorem zeroPatternCtx_wPix : wPix zeroPatternCtx = 1 := by
  show npTrunc ((1 : ℚ) / 1) = 1
  norm_num [npTrunc]

/-- Claim C3 counterexample: at a valid geometry with the in-range all-zero
pattern, the rendered mask's entry is NaN — neither non-negative nor on the
256-level grid — refuting the claim for every in-range pattern. -/
theorem render_zero_pattern_not_quantized_cex :
    ∃ m, get_programmable_mask zeroPatternCtx = .ok m ∧
      ¬ ∃ k : ℕ, k ≤ 255 ∧ m.val 0 0 0 = .fin ((k : ℚ) / 255) := by
  refine ⟨_, mask_all_nan_of_vals_zero zeroPatternCtx (1, 1) rfl
    (broadcastOkAll_of_unit zeroPatternCtx zeroPatternCtx_hPix
      zeroPatternCtx_wPix) (fun _ _ => rfl), ?_⟩
  rintro ⟨k, -, h⟩
  exact FVal.noConfusion h

/-! ## Claim C2: Scenario A and single-active-cell support -/

theorem quantF_fin (q : ℚ) : quantF (.fin q) = .fin ((npRound (q * 255) : ℚ) / 255) := rfl

theorem npDiv_zero_quant {m : ℚ} (hm : m ≠ 0) :
    quantF (npDiv 0 m) = .fin 0 := by
  unfold npDiv
  rw [if_neg hm, quantF_fin]
  rw [show ((0 : ℚ) / m * 255) = ((0 : ℤ) : ℚ) by norm_num, npRound_intCast]
  norm_num

/-- With exactly one active cell (every other cell's value is zero) and a
nonzero rendered maximum, every pixel outside the active cell's written
region is exactly zero in the final mask. -/
theorem single_cell_support (ctx : RenderCtx) (s : ℕ × ℕ) (k0 : ℕ)
    (hcf : ctx.slm.colorFilterShape = some s)
    (hz : ∀ k, k < ctx.nRows * ctx.nCols → k ≠ k0 → slmValsFlat ctx k = 0)
    (hmx : maskMax ctx ≠ 0) (m : MaskImage)
    (hm : get_programmable_mask ctx = .ok m) (ch r c : ℕ)
    (hout : ¬ cellRegion ctx k0 r c) : m.val ch r c = .fin 0 := by
  have hpre : maskPre ctx ch r c = 0 := by
    by_contra hne
    obtain ⟨k, hk, hreg, hval⟩ := placeUpTo_ne_zero ctx _ hne
    have hvk : slmValsFlat ctx k ≠ 0 := fun h0 => hval (by rw [h0, zero_mul])
    have hk0 : k = k0 := by
      by_contra hne'
      exact hvk (hz k hk hne')
    exact hout (hk0 ▸ hreg)
  have h0 := get_programmable_mask_some ctx s hcf
  rw [h0] at hm
  by_cases hb : broadcastOkAll ctx
  · rw [if_pos hb] at hm
    injection hm with hm'
    rw [← hm']
    show quantF (npDiv (maskPre ctx ch r c) (maskMax ctx)) = .fin 0
    rw [hpre]
    exact npDiv_zero_quant hmx
  · rw [if_neg hb] at hm
    exact Except.noConfusion hm

/-- Claim C2 counterexample: on Scenario A the render raises a broadcast
`ValueError` — the `+ 1` column offset of line 174 pushes the rightmost
cell column's fixed 8-wide rectangle into a border-clipped 7-wide view —
and returns no mask, so no rendered mask with the claimed 255-level 8×8
block at rows and columns 0-7 exists. -/
theorem scenarioA_value_error_cex :
    get_programmable_mask ctxA = .error .valueError ∧
    ∀ m, get_programmable_mask ctxA ≠ .ok m := by
  have h : get_programmable_mask ctxA = .error .valueError :=
    ctxAWith_value_error _
  refine ⟨h, fun m hm => ?_⟩
  rw [h] at hm
  exact Except.noConfusion hm

/-- Claim C2, amended: on Scenario A `get_programmable_mask` returns no
mask at all: the column top-left is `center + 1 - floor(w/2)` (line 174),
which places the rightmost cell column's 8-wide slice at columns 57-64; the
border clips the view to 7 columns and numpy raises `ValueError` when the
fixed-shape rectangle is assigned into it (lines 185-191).  In general, for
a pattern with exactly one active cell whose render does return a mask with
a nonzero maximum, every pixel outside the pixel region the code writes for
that cell (its slice under Python clamping semantics) is zero. -/
theorem scenarioA_and_single_cell_support :
    (get_programmable_mask ctxA = .error .valueError) ∧
    (∀ (ctx : RenderCtx) (s : ℕ × ℕ) (k0 : ℕ),
      ctx.slm.colorFilterShape = some s →
      (∀ k, k < ctx.nRows * ctx.nCols → k ≠ k0 → slmValsFlat ctx k = 0) →
      maskMax ctx ≠ 0 →
      ∀ m, get_programmable_mask ctx = .ok m →
        ∀ ch r c, ¬ cellRegion ctx k0 r c → m.val ch r c = .fin 0) :=
  ⟨ctxAWith_value_error _, fun ctx s k0 hcf hz hmx m hm ch r c hout =>
    single_cell_support ctx s k0 hcf hz hmx m hm ch r c hout⟩

/-- Witness for the amended C2: the general single-active-cell part applied
to the concrete geometry `quantCtx` at the out-of-region pixel (0, 0). -/
theorem scenarioA_and_single_cell_support_witness :
    maskMax quantCtx ≠ 0 ∧ ¬ cellRegion quantCtx 0 0 0 ∧
    ∃ m, get_programmable_mask quantCtx = .ok m ∧ m.val 0 0 0 = FVal.fin 0 :=
  ⟨quantCtx_max_pos.ne', quantCtx_not_region,
    ⟨_, get_programmable_mask_ok quantCtx (1, 1) rfl quantCtx_broadcast,
      scenarioA_and_single_cell_support.2 quantCtx (1, 1) 0 rfl
        (fun k hk hne => absurd hne (by
          have hk1 : k < 1 * 1 := hk
          omega)) quantCtx_max_pos.ne' _
        (get_programmable_mask_ok quantCtx (1, 1) rfl quantCtx_broadcast)
        0 0 0 quantCtx_not_region⟩⟩

/-! ## Claims C5 and C7: intensity PSF -/

/-- Claim C7: the intensity of the propagated wavefront is non-negative for
every input (it is `|field|²`, a sum of two squares), and with propagation
bypassed (`waveprop=False`) `get_intensity_psf` returns exactly the
elementwise intensity `|mask|²` of the mask image. -/
theorem intensity_nonneg_and_bypass (mask : RealImage) (sensor : SensorSpec)
    (s2m m2s : ℚ) (nwv : ℕ) (wv : ℕ → ℚ) (eng : PsfEngine)
    (waveprop : Bool) :
    (∀ out, get_intensity_psf mask sensor s2m m2s nwv wv eng waveprop =
        .ok out → ∀ i r c, 0 ≤ out.val i r c) ∧
    (waveprop = false →
      get_intensity_psf mask sensor s2m m2s nwv wv eng waveprop = .ok
        { nch := mask.nch, nr := mask.nr, nc := mask.nc,
          val := fun i r c => (mask.val i r c) ^ 2 }) := by
  constructor
  · intro out hout i r c
    unfold get_intensity_psf at hout
    split at hout
    · split at hout
      · injection hout with h
        rw [← h]
        show 0 ≤ CF.absSq _
        unfold CF.absSq
        positivity
      · exact Except.noConfusion hout
    · injection hout with h
      rw [← h]
      positivity
  · rintro rfl
    rfl

/-- Witness for C7: a concrete bypassed run on a mask with a negative entry
still returns the elementwise square, which is non-negative. -/
theorem intensity_nonneg_and_bypass_witness :
    get_intensity_psf ⟨1, 1, 1, fun _ _ _ => -2⟩ ⟨2, 2, 1⟩ 1 1 1 (fun _ => 1)
      ⟨fun _ _ _ _ _ => ⟨0, 0⟩, fun _ _ _ _ _ _ => ⟨0, 0⟩⟩ false = .ok
      { nch := 1, nr := 1, nc := 1, val := fun _ _ _ => ((-2 : ℚ)) ^ 2 } ∧
    (0 ≤ ((-2 : ℚ)) ^ 2) := by
  have h := intensity_nonneg_and_bypass ⟨1, 1, 1, fun _ _ _ => -2⟩ ⟨2, 2, 1⟩
    1 1 1 (fun _ => 1) ⟨fun _ _ _ _ _ => ⟨0, 0⟩, fun _ _ _ _ _ _ => ⟨0, 0⟩⟩
    false
  exact ⟨h.2 rfl, h.1 _ (h.2 rfl) 0 0 0⟩

/-- Claim C5 counterexample: with propagation disabled (the function's
default, `waveprop=False`), `get_intensity_psf` performs no wavelength
check at all: with 1 wavelength and a 2-channel mask it raises nothing,
refuting the claimed "raises if and only if the counts differ". -/
theorem intensity_no_error_when_bypassed_cex :
    ¬ ((∃ e, get_intensity_psf ⟨2, 1, 1, fun _ _ _ => 0⟩ ⟨2, 2, 1⟩ 1 1 1
        (fun _ => 1) ⟨fun _ _ _ _ _ => ⟨0, 0⟩, fun _ _ _ _ _ _ => ⟨0, 0⟩⟩
        false = .error e) ↔
      (1 ≠ 2)) := by
  intro h
  obtain ⟨e, he⟩ := h.mpr (by omega)
  exact Except.noConfusion he

/-- Claim C5, amended: when propagation is enabled (`waveprop=True`),
`get_intensity_psf` raises an error if and only if the wavelength count
differs from the mask channel count; when the counts match, each output
channel depends only on its own mask channel and its own wavelength.  With
propagation disabled no check is performed. -/
theorem intensity_wavelength_check :
    (∀ (mask : RealImage) (sensor : SensorSpec) (s2m m2s : ℚ) (nwv : ℕ)
        (wv : ℕ → ℚ) (eng : PsfEngine),
      (∃ e, get_intensity_psf mask sensor s2m m2s nwv wv eng true =
        .error e) ↔ nwv ≠ mask.nch) ∧
    (∀ (mask₁ mask₂ : RealImage) (sensor : SensorSpec) (s2m m2s : ℚ)
        (nwv : ℕ) (wv₁ wv₂ : ℕ → ℚ) (eng : PsfEngine) (i : ℕ)
        (out₁ out₂ : RealImage),
      get_intensity_psf mask₁ sensor s2m m2s nwv wv₁ eng true = .ok out₁ →
      get_intensity_psf mask₂ sensor s2m m2s nwv wv₂ eng true = .ok out₂ →
      wv₂ i = wv₁ i → (∀ y x, mask₂.val i y x = mask₁.val i y x) →
      ∀ r c, out₂.val i r c = out₁.val i r c) := by
  constructor
  · intro mask sensor s2m m2s nwv wv eng
    unfold get_intensity_psf
    by_cases h : nwv = mask.nch
    · rw [if_pos rfl, if_pos h]
      constructor
      · rintro ⟨e, he⟩
        exact Except.noConfusion he
      · intro hne
        exact absurd h hne
    · rw [if_pos rfl, if_neg h]
      exact ⟨fun _ => h, fun _ => ⟨.assertionError, rfl⟩⟩
  · intro mask₁ mask₂ sensor s2m m2s nwv wv₁ wv₂ eng i out₁ out₂ h1 h2 hw hv
      r c
    unfold get_intensity_psf at h1 h2
    rw [if_pos rfl] at h1 h2
    split at h1
    · split at h2
      · injection h1 with h1'
        injection h2 with h2'
        rw [← h1', ← h2']
        show CF.absSq _ = CF.absSq _
        rw [hw]
        congr 1
        congr 1
        funext y x
        rw [hv y x]
      · exact Except.noConfusion h2
    · exact Except.noConfusion h1

/-- Witness for the amended C5: a 1-wavelength, 2-channel run errors; a
matched 1-wavelength, 1-channel run does not, and two matched runs that
agree on channel 0 produce the same channel-0 output. -/
theorem intensity_wavelength_check_witness :
    ((∃ e, get_intensity_psf ⟨2, 1, 1, fun _ _ _ => 0⟩ ⟨2, 2, 1⟩ 1 1 1
        (fun _ => 1) ⟨fun _ _ _ _ _ => ⟨0, 0⟩, fun _ _ _ _ _ _ => ⟨0, 0⟩⟩
        true = .error e) ↔
      (1 ≠ 2)) ∧
    ∃ out, get_intensity_psf ⟨1, 1, 1, fun _ _ _ => 1⟩ ⟨2, 2, 1⟩ 1 1 1
        (fun _ => 1) ⟨fun _ _ _ _ _ => ⟨0, 0⟩, fun _ _ _ _ _ _ => ⟨0, 0⟩⟩
        true = .ok out ∧
      out.val 0 0 0 = out.val 0 0 0 := by
  refine ⟨?_, ⟨_, rfl, ?_⟩⟩
  · have h := intensity_wavelength_check.1 ⟨2, 1, 1, fun _ _ _ => 0⟩
      ⟨2, 2, 1⟩ 1 1 1 (fun _ => 1)
      ⟨fun _ _ _ _ _ => ⟨0, 0⟩, fun _ _ _ _ _ _ => ⟨0, 0⟩⟩
    exact h
  · exact intensity_wavelength_check.2 ⟨1, 1, 1, fun _ _ _ => 1⟩
      ⟨1, 1, 1, fun _ _ _ => 1⟩ ⟨2, 2, 1⟩ 1 1 1 (fun _ => 1) (fun _ => 1)
      ⟨fun _ _ _ _ _ => ⟨0, 0⟩, fun _ _ _ _ _ _ => ⟨0, 0⟩⟩ 0 _ _ rfl rfl
      rfl (fun _ _ => rfl) 0 0

/-! ## Lemmas for the conditioning pipeline (`io.py`) -/

theorem mem_bgIdx {a : Arr4} {b0 b1 : ℕ} {p : ℕ × ℕ × ℕ} :
    p ∈ bgIdx a b0 b1 ↔
      p.1 < a.d ∧ min b0 a.h ≤ p.2.1 ∧ p.2.1 < min b1 a.h ∧
        min b0 a.w ≤ p.2.2 ∧ p.2.2 < min b1 a.w := by
  obtain ⟨n, y, x⟩ := p
  simp only [bgIdx, Finset.mem_product, Finset.mem_range, Finset.mem_Ico]
  tauto

theorem mem_bgIdx_bounds {a : Arr4} {b0 b1 : ℕ} {p : ℕ × ℕ × ℕ}
    (h : p ∈ bgIdx a b0 b1) : p.1 < a.d ∧ p.2.1 < a.h ∧ p.2.2 < a.w := by
  rw [mem_bgIdx] at h
  omega

theorem bgIdx_nonempty (a : Arr4) (b0 b1 : ℕ) (hd : 0 < a.d) (hb : b0 < b1)
    (hbh : b1 ≤ a.h) (hbw : b1 ≤ a.w) : (bgIdx a b0 b1).Nonempty :=
  ⟨(0, b0, b0), mem_bgIdx.mpr
    ⟨hd, min_le_left _ _, lt_min hb (lt_of_lt_of_le hb hbh), min_le_left _ _,
      lt_min hb (lt_of_lt_of_le hb hbw)⟩⟩

theorem mem_idxList4 {a : Arr4} {p : ℕ × ℕ × ℕ × ℕ} :
    p ∈ idxList4 a ↔
      p.1 < a.d ∧ p.2.1 < a.h ∧ p.2.2.1 < a.w ∧ p.2.2.2 < a.c := by
  obtain ⟨n, y, x, ch⟩ := p
  simp only [idxList4, List.mem_flatMap, List.mem_map, List.mem_range]
  constructor
  · rintro ⟨i, hi, j, hj, k, hk, l, hl, h⟩
    simp only [Prod.mk.injEq] at h
    obtain ⟨rfl, rfl, rfl, rfl⟩ := h
    exact ⟨hi, hj, hk, hl⟩
  · rintro ⟨hn, hy, hx, hc⟩
    exact ⟨n, hn, y, hy, x, hx, ch, hc, rfl⟩

theorem le_arrMax4 (a : Arr4) {n y x ch : ℕ} (hn : n < a.d) (hy : y < a.h)
    (hx : x < a.w) (hch : ch < a.c) : a.val n y x ch ≤ arrMax4 a := by
  refine mem_le_foldl_max ?_ _
  exact List.mem_map.mpr ⟨(n, y, x, ch), mem_idxList4.mpr ⟨hn, hy, hx, hch⟩, rfl⟩

/-- The mean over a nonempty finite index set is at most the value at some
index (numpy's region mean never exceeds the region maximum). -/
theorem mean_le_exists {α : Type} (s : Finset α) (f : α → ℚ)
    (hs : s.Nonempty) :
    ∃ p ∈ s, (∑ q ∈ s, f q) / (s.card : ℚ) ≤ f p := by
  have hcard : (0 : ℚ) < s.card := by
    have := Finset.card_pos.mpr hs
    exact_mod_cast this
  have hsum : ∑ _q ∈ s, (∑ q ∈ s, f q) / (s.card : ℚ) ≤ ∑ q ∈ s, f q := by
    rw [Finset.sum_const, nsmul_eq_mul]
    rw [mul_div_cancel₀]
    exact ne_of_gt hcard
  exact Finset.exists_le_of_sum_le hs hsum

theorem bgSubClip_none (a : Arr4) (g : Bool) : bgSubClip a g none = a := rfl

theorem bgSubClip_dims (a : Arr4) (g : Bool) (bgpix : Option (ℕ × ℕ)) :
    (bgSubClip a g bgpix).d = a.d ∧ (bgSubClip a g bgpix).h = a.h ∧
    (bgSubClip a g bgpix).w = a.w ∧ (bgSubClip a g bgpix).c = a.c := by
  match bgpix with
  | none => exact ⟨rfl, rfl, rfl, rfl⟩
  | some (b0, b1) => exact ⟨rfl, rfl, rfl, rfl⟩

theorem bgSubClip_some_val (a : Arr4) (g : Bool) (b0 b1 : ℕ) (n y x ch : ℕ) :
    (bgSubClip a g (some (b0, b1))).val n y x ch =
      min (arrMax4 (subArr a g b0 b1))
        (max 0 ((subArr a g b0 b1).val n y x ch)) := rfl

/-- The clipped array is non-negative as soon as the post-subtraction
maximum is non-negative, which always holds because subtracting a region
mean cannot push every region entry below zero. -/
theorem bgSubClip_nonneg (a : Arr4) (g : Bool) (b0 b1 : ℕ)
    (hd : 0 < a.d) (hc : 0 < a.c) (hb : b0 < b1) (hbh : b1 ≤ a.h)
    (hbw : b1 ≤ a.w) (n y x ch : ℕ) :
    0 ≤ (bgSubClip a g (some (b0, b1))).val n y x ch := by
  rw [bgSubClip_some_val]
  have hne := bgIdx_nonempty a b0 b1 hd hb hbh hbw
  have hM : 0 ≤ arrMax4 (subArr a g b0 b1) := by
    cases g with
    | true =>
        obtain ⟨q, hq, hqle⟩ := mean_le_exists
          ((bgIdx a b0 b1) ×ˢ Finset.range a.c)
          (fun q => a.val q.1.1 q.1.2.1 q.1.2.2 q.2)
          (hne.product ⟨0, Finset.mem_range.mpr hc⟩)
        obtain ⟨hq1, hq2⟩ := Finset.mem_product.mp hq
        obtain ⟨hqd, hqh, hqw⟩ := mem_bgIdx_bounds hq1
        have hmean : bgGray a b0 b1 ≤ a.val q.1.1 q.1.2.1 q.1.2.2 q.2 := by
          refine le_trans (le_of_eq ?_) hqle
          unfold bgGray
          rw [Finset.sum_product, Finset.card_product, Finset.card_range]
          push_cast
          ring_nf
        have hsval : 0 ≤ (subArr a true b0 b1).val q.1.1 q.1.2.1 q.1.2.2 q.2 := by
          show 0 ≤ a.val q.1.1 q.1.2.1 q.1.2.2 q.2 -
            (if true = true then bgGray a b0 b1
             else if q.2 < 3 then bgCh a b0 b1 q.2 else 0)
          rw [if_pos rfl]
          linarith
        exact le_trans hsval
          (le_arrMax4 (subArr a true b0 b1) hqd hqh hqw
            (Finset.mem_range.mp hq2))
    | false =>
        obtain ⟨p, hp, hple⟩ := mean_le_exists (bgIdx a b0 b1)
          (fun q => a.val q.1 q.2.1 q.2.2 0) hne
        obtain ⟨hpd, hph, hpw⟩ := mem_bgIdx_bounds hp
        have hsval : 0 ≤ (subArr a false b0 b1).val p.1 p.2.1 p.2.2 0 := by
          show 0 ≤ a.val p.1 p.2.1 p.2.2 0 -
            (if false = true then bgGray a b0 b1
             else if (0 : ℕ) < 3 then bgCh a b0 b1 0 else 0)
          rw [if_neg (by simp), if_pos (by omega)]
          unfold bgCh
          linarith [hple]
        exact le_trans hsval (le_arrMax4 (subArr a false b0 b1) hpd hph hpw hc)
  exact le_min hM (le_max_left 0 _)

theorem overlap_nonneg (s : ℚ) (i y : ℕ) : 0 ≤ overlap s i y :=
  le_max_left 0 _

theorem overlap_one (i y : ℕ) : overlap 1 i y = if i = y then 1 else 0 := by
  unfold overlap
  rw [mul_one, mul_one]
  by_cases h : i = y
  · subst h
    rw [if_pos rfl, min_self, max_self]
    norm_num
  · rw [if_neg h]
    have hle : min ((i : ℚ) + 1) ((y : ℚ) + 1) ≤ max (i : ℚ) (y : ℚ) := by
      rcases lt_or_gt_of_ne h with hlt | hgt

      · calc min ((i : ℚ) + 1) ((y : ℚ) + 1) ≤ (i : ℚ) + 1 := min_le_left _ _
          _ ≤ (y : ℚ) := by exact_mod_cast Nat.succ_le_of_lt hlt
          _ ≤ max (i : ℚ) (y : ℚ) := le_max_right _ _
      · calc min ((i : ℚ) + 1) ((y : ℚ) + 1) ≤ (y : ℚ) + 1 := min_le_right _ _
          _ ≤ (i : ℚ) := by exact_mod_cast Nat.succ_le_of_lt hgt
          _ ≤ max (i : ℚ) (y : ℚ) := le_max_left _ _
    exact max_eq_left (sub_nonpos.mpr hle)

theorem resize4_nonneg (a : Arr4) (th tw : ℕ)
    (hnn : ∀ n y x ch, n < a.d → y < a.h → x < a.w → ch < a.c →
      0 ≤ a.val n y x ch)
    (n y x ch : ℕ) (hn : n < a.d) (hch : ch < a.c) :
    0 ≤ (resize4 a th tw).val n y x ch := by
  show 0 ≤ (∑ i ∈ Finset.range a.h, ∑ j ∈ Finset.range a.w,
    overlap ((a.h : ℚ) / (th : ℚ)) i y * overlap ((a.w : ℚ) / (tw : ℚ)) j x *
      a.val n i j ch) / ((a.h : ℚ) / (th : ℚ) * ((a.w : ℚ) / (tw : ℚ)))
  refine div_nonneg (Finset.sum_nonneg fun i hi => Finset.sum_nonneg
    fun j hj => ?_) (by positivity)
  refine mul_nonneg (mul_nonneg (overlap_nonneg _ _ _) (overlap_nonneg _ _ _))
    (hnn n i j ch hn ?_ ?_ hch)
  · exact Finset.mem_range.mp hi
  · exact Finset.mem_range.mp hj

theorem resize4_self (a : Arr4) (n y x ch : ℕ) (hy : y < a.h) (hx : x < a.w) :
    (resize4 a a.h a.w).val n y x ch = a.val n y x ch := by
  have hh : (0 : ℕ) < a.h := lt_of_le_of_lt (Nat.zero_le y) hy
  have hw : (0 : ℕ) < a.w := lt_of_le_of_lt (Nat.zero_le x) hx
  have hsy : (a.h : ℚ) / (a.h : ℚ) = 1 := div_self (by exact_mod_cast hh.ne')
  have hsx : (a.w : ℚ) / (a.w : ℚ) = 1 := div_self (by exact_mod_cast hw.ne')
  show (∑ i ∈ Finset.range a.h, ∑ j ∈ Finset.range a.w,
    overlap ((a.h : ℚ) / (a.h : ℚ)) i y * overlap ((a.w : ℚ) / (a.w : ℚ)) j x *
      a.val n i j ch) / ((a.h : ℚ) / (a.h : ℚ) * ((a.w : ℚ) / (a.w : ℚ))) =
    a.val n y x ch
  rw [hsy, hsx, mul_one, div_one]
  rw [Finset.sum_eq_single_of_mem y (Finset.mem_range.mpr hy) ?side1]
  case side1 =>
    intro b _ hby
    refine Finset.sum_eq_zero fun j _ => ?_
    rw [overlap_one, if_neg hby, zero_mul, zero_mul]
  rw [Finset.sum_eq_single_of_mem x (Finset.mem_range.mpr hx) ?side2]
  case side2 =>
    intro b _ hbx
    rw [overlap_one b x, if_neg hbx, mul_zero, zero_mul]
  rw [overlap_one, if_pos rfl, overlap_one, if_pos rfl]
  ring

theorem singlePsfStep_false (a : Arr4) : singlePsfStep a false = a := by
  unfold singlePsfStep
  rw [if_neg]
  simp

theorem sumSq_nonneg (a : Arr4) : 0 ≤ sumSq a := by
  unfold sumSq
  refine Finset.sum_nonneg fun n _ => Finset.sum_nonneg fun y _ =>
    Finset.sum_nonneg fun x _ => Finset.sum_nonneg fun ch _ => sq_nonneg _

theorem single_le_sum_range {m : ℕ} (f : ℕ → ℚ) (h : ∀ i, 0 ≤ f i)
    {i : ℕ} (hi : i < m) : f i ≤ ∑ j ∈ Finset.range m, f j :=
  Finset.single_le_sum (fun j _ => h j) (Finset.mem_range.mpr hi)

theorem sq_le_sumSq (a : Arr4) {n y x ch : ℕ} (hn : n < a.d) (hy : y < a.h)
    (hx : x < a.w) (hch : ch < a.c) : (a.val n y x ch) ^ 2 ≤ sumSq a := by
  unfold sumSq
  calc (a.val n y x ch) ^ 2
      ≤ ∑ ch' ∈ Finset.range a.c, (a.val n y x ch') ^ 2 :=
        single_le_sum_range (fun ch' => (a.val n y x ch') ^ 2)
          (fun _ => sq_nonneg _) hch
    _ ≤ ∑ x' ∈ Finset.range a.w, ∑ ch' ∈ Finset.range a.c,
          (a.val n y x' ch') ^ 2 :=
        single_le_sum_range
          (fun x' => ∑ ch' ∈ Finset.range a.c, (a.val n y x' ch') ^ 2)
          (fun _ => Finset.sum_nonneg fun j _ => sq_nonneg _) hx
    _ ≤ ∑ y' ∈ Finset.range a.h, ∑ x' ∈ Finset.range a.w,
          ∑ ch' ∈ Finset.range a.c, (a.val n y' x' ch') ^ 2 :=
        single_le_sum_range
          (fun y' => ∑ x' ∈ Finset.range a.w, ∑ ch' ∈ Finset.range a.c,
            (a.val n y' x' ch') ^ 2)
          (fun _ => Finset.sum_nonneg fun j _ =>
            Finset.sum_nonneg fun k _ => sq_nonneg _) hy
    _ ≤ ∑ n' ∈ Finset.range a.d, ∑ y' ∈ Finset.range a.h,
          ∑ x' ∈ Finset.range a.w, ∑ ch' ∈ Finset.range a.c,
          (a.val n' y' x' ch') ^ 2 :=
        single_le_sum_range
          (fun n' => ∑ y' ∈ Finset.range a.h, ∑ x' ∈ Finset.range a.w,
            ∑ ch' ∈ Finset.range a.c, (a.val n' y' x' ch') ^ 2)
          (fun _ => Finset.sum_nonneg fun j _ =>
            Finset.sum_nonneg fun k _ => Finset.sum_nonneg fun l _ =>
              sq_nonneg _) hn

theorem sumSq_pos_of_entry (a : Arr4) {n y x ch : ℕ} (hn : n < a.d)
    (hy : y < a.h) (hx : x < a.w) (hch : ch < a.c)
    (hval : a.val n y x ch ≠ 0) : 0 < sumSq a :=
  lt_of_lt_of_le
    (lt_of_le_of_ne (sq_nonneg _) (Ne.symm (pow_ne_zero 2 hval)))
    (sq_le_sumSq a hn hy hx hch)

theorem normArr_nonneg (a : Arr4) (n y x ch : ℕ)
    (h : 0 ≤ a.val n y x ch) : 0 ≤ normArr a n y x ch := by
  unfold normArr
  refine div_nonneg ?_ (Real.sqrt_nonneg _)
  exact_mod_cast h

theorem sumSqR_normArr (a : Arr4) (hS : sumSq a ≠ 0) :
    sumSqR (normArr a) a.d a.h a.w a.c = 1 := by
  have hS0 : (0 : ℝ) ≤ ((sumSq a : ℚ) : ℝ) := by
    exact_mod_cast sumSq_nonneg a
  have hSne : ((sumSq a : ℚ) : ℝ) ≠ 0 := by exact_mod_cast hS
  unfold sumSqR normArr
  have hterm : ∀ n y x ch : ℕ,
      ((a.val n y x ch : ℝ) / Real.sqrt ((sumSq a : ℚ) : ℝ)) ^ 2 =
      ((a.val n y x ch : ℝ)) ^ 2 / ((sumSq a : ℚ) : ℝ) := by
    intro n y x ch
    rw [div_pow, Real.sq_sqrt hS0]
  simp_rw [hterm, ← Finset.sum_div]
  rw [show (∑ n ∈ Finset.range a.d, ∑ y ∈ Finset.range a.h,
      ∑ x ∈ Finset.range a.w, ∑ ch ∈ Finset.range a.c,
        ((a.val n y x ch : ℝ)) ^ 2) = ((sumSq a : ℚ) : ℝ) by
    unfold sumSq
    push_cast
    rfl]
  exact div_self hSne

theorem normArr_of_sumSq_one (a : Arr4) (h1 : sumSq a = 1) (n y x ch : ℕ) :
    normArr a n y x ch = (a.val n y x ch : ℝ) := by
  unfold normArr
  rw [h1]
  norm_num

theorem resizeTarget_none_one (a : Arr4) :
    resizeTarget a none (1 / 1) = (a.h, a.w) := by
  unfold resizeTarget
  norm_num

theorem load_psf_pre_dims (a : Arr4) (g : Bool) (bgpix : Option (ℕ × ℕ)) :
    (load_psf_pre a g bgpix 1 none false).d = a.d ∧
    (load_psf_pre a g bgpix 1 none false).h = a.h ∧
    (load_psf_pre a g bgpix 1 none false).w = a.w ∧
    (load_psf_pre a g bgpix 1 none false).c = a.c := by
  obtain ⟨h1, h2, h3, h4⟩ := bgSubClip_dims a g bgpix
  unfold load_psf_pre
  rw [singlePsfStep_false, resizeTarget_none_one]
  exact ⟨h1, h2, h3, h4⟩

theorem singlePsfStep_nonneg (r : Arr4) (flag : Bool)
    (hr : ∀ n y x ch, n < r.d → ch < r.c → 0 ≤ r.val n y x ch) :
    ∀ n y x ch, n < (singlePsfStep r flag).d →
      ch < (singlePsfStep r flag).c →
      0 ≤ (singlePsfStep r flag).val n y x ch := by
  unfold singlePsfStep
  split
  · intro n y x ch hn _
    exact Finset.sum_nonneg fun ch' hch' =>
      hr n y x ch' hn (Finset.mem_range.mp hch')
  · exact fun n y x ch hn hch => hr n y x ch hn hch

/-- Well-formedness of the background window: it is nonempty and fits in
the image (an empty window would make `np.mean` return NaN). -/
def regionOk (a : Arr4) : Option (ℕ × ℕ) → Prop
  | none => True
  | some (b0, b1) => b0 < b1 ∧ b1 ≤ a.h ∧ b1 ≤ a.w

/-! ## Claim C1 -/

/-- Claim C1: for every raw PSF (non-negative, as raw sensor data is) with
non-degenerate energy after conditioning, the PSF returned by `load_psf`
with `return_float=True` is entrywise non-negative and the sum of squares of
its flattened entries is exactly 1 — i.e. its Euclidean norm is 1 (well
within the claimed 1e-5 tolerance). -/
theorem load_psf_unit_norm_nonneg (a : Arr4) (g single : Bool)
    (bgpix : Option (ℕ × ℕ)) (downsample : ℚ) (shape : Option (ℕ × ℕ))
    (hd : 0 < a.d) (hc : 0 < a.c) (hreg : regionOk a bgpix)
    (hnn : ∀ n y x ch, n < a.d → y < a.h → x < a.w → ch < a.c →
      0 ≤ a.val n y x ch)
    (hS : sumSq (load_psf_pre a g bgpix downsample shape single) ≠ 0) :
    (∀ n y x ch,
      n < (load_psf_pre a g bgpix downsample shape single).d →
      ch < (load_psf_pre a g bgpix downsample shape single).c →
      0 ≤ load_psf_cond a g bgpix downsample shape single n y x ch) ∧
    sumSqR (load_psf_cond a g bgpix downsample shape single)
      (load_psf_pre a g bgpix downsample shape single).d
      (load_psf_pre a g bgpix downsample shape single).h
      (load_psf_pre a g bgpix downsample shape single).w
      (load_psf_pre a g bgpix downsample shape single).c = 1 := by
  have hbnn : ∀ n y x ch, n < (bgSubClip a g bgpix).d →
      y < (bgSubClip a g bgpix).h → x < (bgSubClip a g bgpix).w →
      ch < (bgSubClip a g bgpix).c → 0 ≤ (bgSubClip a g bgpix).val n y x ch := by
    match bgpix with
    | none => exact hnn
    | some (b0, b1) =>
        obtain ⟨hb, hbh, hbw⟩ := hreg
        exact fun n y x ch _ _ _ _ =>
          bgSubClip_nonneg a g b0 b1 hd hc hb hbh hbw n y x ch
  have hrnn : ∀ n y x ch,
      n < (resize4 (bgSubClip a g bgpix)
        (resizeTarget (bgSubClip a g bgpix) shape (1 / downsample)).1
        (resizeTarget (bgSubClip a g bgpix) shape (1 / downsample)).2).d →
      ch < (resize4 (bgSubClip a g bgpix)
        (resizeTarget (bgSubClip a g bgpix) shape (1 / downsample)).1
        (resizeTarget (bgSubClip a g bgpix) shape (1 / downsample)).2).c →
      0 ≤ (resize4 (bgSubClip a g bgpix)
        (resizeTarget (bgSubClip a g bgpix) shape (1 / downsample)).1
        (resizeTarget (bgSubClip a g bgpix) shape (1 / downsample)).2).val
          n y x ch :=
    fun n y x ch hn hch =>
      resize4_nonneg (bgSubClip a g bgpix) _ _ hbnn n y x ch hn hch
  have hpnn := singlePsfStep_nonneg _ single hrnn
  refine ⟨fun n y x ch hn hch => ?_, sumSqR_normArr _ hS⟩
  exact normArr_nonneg _ n y x ch (hpnn n y x ch hn hch)

/-! ## Claim C6: idempotence of conditioning -/

/-- On a PSF whose background window has zero mean (hence, by
non-negativity, zero entries), the whole pre-normalisation pipeline with
`downsample=1` is the identity on the in-bounds entries. -/
theorem load_psf_pre_clean_val (a : Arr4) (g : Bool) (b0 b1 : ℕ)
    (hnn : ∀ n y x ch, n < a.d → y < a.h → x < a.w → ch < a.c →
      0 ≤ a.val n y x ch)
    (hzero : ∑ p ∈ bgIdx a b0 b1, ∑ ch ∈ Finset.range a.c,
      a.val p.1 p.2.1 p.2.2 ch = 0) :
    ∀ n y x ch, n < a.d → y < a.h → x < a.w → ch < a.c →
      (load_psf_pre a g (some (b0, b1)) 1 none false).val n y x ch =
        a.val n y x ch := by
  have h1 : ∀ p ∈ bgIdx a b0 b1,
      ∑ ch' ∈ Finset.range a.c, a.val p.1 p.2.1 p.2.2 ch' = 0 :=
    (Finset.sum_eq_zero_iff_of_nonneg fun p hp =>
      Finset.sum_nonneg fun ch' hch' =>
        hnn p.1 p.2.1 p.2.2 ch' (mem_bgIdx_bounds hp).1
          (mem_bgIdx_bounds hp).2.1 (mem_bgIdx_bounds hp).2.2
          (Finset.mem_range.mp hch')).mp hzero
  have hentry : ∀ p ∈ bgIdx a b0 b1, ∀ ch' ∈ Finset.range a.c,
      a.val p.1 p.2.1 p.2.2 ch' = 0 := fun p hp =>
    (Finset.sum_eq_zero_iff_of_nonneg fun ch' hch' =>
      hnn p.1 p.2.1 p.2.2 ch' (mem_bgIdx_bounds hp).1
        (mem_bgIdx_bounds hp).2.1 (mem_bgIdx_bounds hp).2.2
        (Finset.mem_range.mp hch')).mp (h1 p hp)
  have hbgCh : ∀ ch', ch' < a.c → bgCh a b0 b1 ch' = 0 := by
    intro ch' hch'
    unfold bgCh
    rw [Finset.sum_eq_zero fun p hp =>
      hentry p hp ch' (Finset.mem_range.mpr hch'), zero_div]
  have hbgGray : bgGray a b0 b1 = 0 := by
    unfold bgGray
    rw [hzero, zero_div]
  have hsubval : ∀ n y x ch, ch < a.c →
      (subArr a g b0 b1).val n y x ch = a.val n y x ch := by
    intro n y x ch hch
    show a.val n y x ch -
      (if g then bgGray a b0 b1
       else if ch < 3 then bgCh a b0 b1 ch else 0) = a.val n y x ch
    cases g with
    | true => rw [if_pos rfl, hbgGray, sub_zero]
    | false =>
        rw [if_neg (by simp)]
        by_cases h3 : ch < 3
        · rw [if_pos h3, hbgCh ch hch, sub_zero]
        · rw [if_neg h3, sub_zero]
  have hbval : ∀ n y x ch, n < a.d → y < a.h → x < a.w → ch < a.c →
      (bgSubClip a g (some (b0, b1))).val n y x ch = a.val n y x ch := by
    intro n y x ch hn hy hx hch
    rw [bgSubClip_some_val, hsubval n y x ch hch]
    have hM : a.val n y x ch ≤ arrMax4 (subArr a g b0 b1) := by
      have := le_arrMax4 (subArr a g b0 b1) hn hy hx hch
      rwa [hsubval n y x ch hch] at this
    rw [max_eq_right (hnn n y x ch hn hy hx hch), min_eq_right hM]
  intro n y x ch hn hy hx hch
  have hpre : load_psf_pre a g (some (b0, b1)) 1 none false =
      singlePsfStep (resize4 (bgSubClip a g (some (b0, b1)))
        (bgSubClip a g (some (b0, b1))).h
        (bgSubClip a g (some (b0, b1))).w) false := by
    show singlePsfStep (resize4 (bgSubClip a g (some (b0, b1)))
      (resizeTarget (bgSubClip a g (some (b0, b1))) none (1 / 1)).1
      (resizeTarget (bgSubClip a g (some (b0, b1))) none (1 / 1)).2) false = _
    rw [resizeTarget_none_one]
  rw [hpre, singlePsfStep_false,
    resize4_self (bgSubClip a g (some (b0, b1))) n y x ch hy hx]
  exact hbval n y x ch hn hy hx hch

theorem load_psf_pre_clean_sumSq (a : Arr4) (g : Bool) (b0 b1 : ℕ)
    (hnn : ∀ n y x ch, n < a.d → y < a.h → x < a.w → ch < a.c →
      0 ≤ a.val n y x ch)
    (hzero : ∑ p ∈ bgIdx a b0 b1, ∑ ch ∈ Finset.range a.c,
      a.val p.1 p.2.1 p.2.2 ch = 0) :
    sumSq (load_psf_pre a g (some (b0, b1)) 1 none false) = sumSq a := by
  have hval := load_psf_pre_clean_val a g b0 b1 hnn hzero
  obtain ⟨hd1, hd2, hd3, hd4⟩ := load_psf_pre_dims a g (some (b0, b1))
  unfold sumSq
  rw [hd1, hd2, hd3, hd4]
  exact Finset.sum_congr rfl fun n hn => Finset.sum_congr rfl fun y hy =>
    Finset.sum_congr rfl fun x hx => Finset.sum_congr rfl fun ch hch => by
      rw [hval n y x ch (Finset.mem_range.mp hn) (Finset.mem_range.mp hy)
        (Finset.mem_range.mp hx) (Finset.mem_range.mp hch)]

/-- Claim C6: conditioning is idempotent — for a PSF that is already
conditioned (non-negative, background-window mean zero, flattened Euclidean
norm 1), running the `load_psf` pipeline (background subtraction, clipping,
resize with factor 1, norm normalisation) returns the same array exactly. -/
theorem conditioning_idempotent (a : Arr4) (g : Bool) (b0 b1 : ℕ)
    (hnn : ∀ n y x ch, n < a.d → y < a.h → x < a.w → ch < a.c →
      0 ≤ a.val n y x ch)
    (hzero : ∑ p ∈ bgIdx a b0 b1, ∑ ch ∈ Finset.range a.c,
      a.val p.1 p.2.1 p.2.2 ch = 0)
    (hnorm : sumSq a = 1) :
    ∀ n y x ch, n < a.d → y < a.h → x < a.w → ch < a.c →
      load_psf_cond a g (some (b0, b1)) 1 none false n y x ch =
        (a.val n y x ch : ℝ) := by
  intro n y x ch hn hy hx hch
  unfold load_psf_cond
  rw [normArr_of_sumSq_one _ (by
    rw [load_psf_pre_clean_sumSq a g b0 b1 hnn hzero]
    exact hnorm)]
  rw [load_psf_pre_clean_val a g b0 b1 hnn hzero n y x ch hn hy hx hch]

/-- A concrete already-conditioned 2×2 grayscale PSF: entries 3/5 and 4/5
off the background window `[0,1)×[0,1)`, squared norm `9/25 + 16/25 = 1`. -/
def psfEx : Arr4 :=
  ⟨1, 2, 2, 1, fun _ y x _ =>
    if y = 0 ∧ x = 1 then 3/5 else if y = 1 ∧ x = 0 then 4/5 else 0⟩

theorem psfEx_nonneg : ∀ n y x ch, n < psfEx.d → y < psfEx.h →
    x < psfEx.w → ch < psfEx.c → 0 ≤ psfEx.val n y x ch := by
  intro n y x ch _ _ _ _
  show 0 ≤ (if y = 0 ∧ x = 1 then (3 : ℚ)/5
    else if y = 1 ∧ x = 0 then 4/5 else 0)
  split
  · norm_num
  · split
    · norm_num
    · norm_num

theorem psfEx_bgzero : ∑ p ∈ bgIdx psfEx 0 1, ∑ ch ∈ Finset.range psfEx.c,
    psfEx.val p.1 p.2.1 p.2.2 ch = 0 := by
  rw [show bgIdx psfEx 0 1 = {((0 : ℕ), (0 : ℕ), (0 : ℕ))} from by decide]
  rw [Finset.sum_singleton]
  show ∑ ch ∈ Finset.range 1, psfEx.val 0 0 0 ch = 0
  rw [Finset.sum_range_one]
  norm_num [psfEx]

theorem psfEx_sumSq : sumSq psfEx = 1 := by
  show (∑ n ∈ Finset.range 1, ∑ y ∈ Finset.range 2, ∑ x ∈ Finset.range 2,
    ∑ ch ∈ Finset.range 1, (psfEx.val n y x ch) ^ 2) = 1
  norm_num [psfEx, Finset.sum_range_succ]

/-- Witness for C6 at the concrete PSF `psfEx`, evaluated at entry
(0, 0, 1, 0). -/
theorem conditioning_idempotent_witness :
    sumSq psfEx = 1 ∧
    (∑ p ∈ bgIdx psfEx 0 1, ∑ ch ∈ Finset.range psfEx.c,
      psfEx.val p.1 p.2.1 p.2.2 ch = 0) ∧
    load_psf_cond psfEx true (some (0, 1)) 1 none false 0 0 1 0 =
      ((psfEx.val 0 0 1 0 : ℚ) : ℝ) :=
  ⟨psfEx_sumSq, psfEx_bgzero,
    conditioning_idempotent psfEx true 0 1 psfEx_nonneg psfEx_bgzero
      psfEx_sumSq 0 0 1 0 (by norm_num [psfEx]) (by norm_num [psfEx])
      (by norm_num [psfEx]) (by norm_num [psfEx])⟩

/-- Witness for C1 at the concrete PSF `psfEx`. -/
theorem load_psf_unit_norm_nonneg_witness :
    sumSq (load_psf_pre psfEx true (some (0, 1)) 1 none false) ≠ 0 ∧
    (∀ n y x ch,
      n < (load_psf_pre psfEx true (some (0, 1)) 1 none false).d →
      ch < (load_psf_pre psfEx true (some (0, 1)) 1 none false).c →
      0 ≤ load_psf_cond psfEx true (some (0, 1)) 1 none false n y x ch) ∧
    sumSqR (load_psf_cond psfEx true (some (0, 1)) 1 none false)
      (load_psf_pre psfEx true (some (0, 1)) 1 none false).d
      (load_psf_pre psfEx true (some (0, 1)) 1 none false).h
      (load_psf_pre psfEx true (some (0, 1)) 1 none false).w
      (load_psf_pre psfEx true (some (0, 1)) 1 none false).c = 1 := by
  have hS : sumSq (load_psf_pre psfEx true (some (0, 1)) 1 none false) ≠ 0 := by
    rw [load_psf_pre_clean_sumSq psfEx true 0 1 psfEx_nonneg psfEx_bgzero,
      psfEx_sumSq]
    norm_num
  refine ⟨hS, ?_⟩
  exact load_psf_unit_norm_nonneg psfEx true false (some (0, 1)) 1 none
    (by norm_num [psfEx]) (by norm_num [psfEx])
    ⟨by norm_num, by norm_num [psfEx], by norm_num [psfEx]⟩ psfEx_nonneg hS

/-! ## Claim C8: `load_data` shape matching and unit norms -/

/-- For a 100×100 PSF and a 96×96 measurement the shapes differ, so
`load_data` takes the resize branch. -/
theorem load_data_pre_96_eq (pav : ℕ → ℕ → ℕ → ℕ → ℚ)
    (dav : ℕ → ℕ → ℕ → ℚ) :
    load_data_pre
      (load_psf_pre ⟨1, 100, 100, 3, pav⟩ false (some (5, 25)) 1 none false)
      (load_psf_bg ⟨1, 100, 100, 3, pav⟩ false (some (5, 25)))
      ⟨96, 96, 3, dav⟩ =
      resize4 (data4 (load_psf_bg ⟨1, 100, 100, 3, pav⟩ false (some (5, 25)))
        ⟨96, 96, 3, dav⟩)
        (load_psf_pre ⟨1, 100, 100, 3, pav⟩ false (some (5, 25)) 1 none
          false).h
        (load_psf_pre ⟨1, 100, 100, 3, pav⟩ false (some (5, 25)) 1 none
          false).w := by
  obtain ⟨h1, h2, h3, h4⟩ :=
    load_psf_pre_dims ⟨1, 100, 100, 3, pav⟩ false (some (5, 25))
  unfold load_data_pre
  rw [if_neg]
  rw [h1, h2, h3, h4]
  intro hcond
  injection hcond with e1 hcond
  injection hcond with e2 hcond
  exact absurd (show (96 : ℕ) = 100 from e2) (by norm_num)

/-- Claim C8: for a 100×100 RGB PSF and a 96×96 RGB measurement with
non-degenerate conditioned energy, `load_data` (default background window
(5, 25), downsample 1) returns a measurement resized to the PSF's final
shape — both come out `1×100×100×3` — and both conditioned arrays have
flattened squared Euclidean norm exactly 1. -/
theorem load_data_matched_shapes_unit_norm
    (pav : ℕ → ℕ → ℕ → ℕ → ℚ) (dav : ℕ → ℕ → ℕ → ℚ)
    (hS1 : sumSq ((load_data_cond ⟨1, 100, 100, 3, pav⟩ ⟨96, 96, 3, dav⟩
      false (some (5, 25)) 1 none false).2.1) ≠ 0)
    (hS2 : sumSq ((load_data_cond ⟨1, 100, 100, 3, pav⟩ ⟨96, 96, 3, dav⟩
      false (some (5, 25)) 1 none false).2.2.2) ≠ 0) :
    (((load_data_cond ⟨1, 100, 100, 3, pav⟩ ⟨96, 96, 3, dav⟩ false
        (some (5, 25)) 1 none false).2.2.2.d,
      (load_data_cond ⟨1, 100, 100, 3, pav⟩ ⟨96, 96, 3, dav⟩ false
        (some (5, 25)) 1 none false).2.2.2.h,
      (load_data_cond ⟨1, 100, 100, 3, pav⟩ ⟨96, 96, 3, dav⟩ false
        (some (5, 25)) 1 none false).2.2.2.w,
      (load_data_cond ⟨1, 100, 100, 3, pav⟩ ⟨96, 96, 3, dav⟩ false
        (some (5, 25)) 1 none false).2.2.2.c) =
      ((1 : ℕ), (100 : ℕ), (100 : ℕ), (3 : ℕ))) ∧
    (((load_data_cond ⟨1, 100, 100, 3, pav⟩ ⟨96, 96, 3, dav⟩ false
        (some (5, 25)) 1 none false).2.1.d,
      (load_data_cond ⟨1, 100, 100, 3, pav⟩ ⟨96, 96, 3, dav⟩ false
        (some (5, 25)) 1 none false).2.1.h,
      (load_data_cond ⟨1, 100, 100, 3, pav⟩ ⟨96, 96, 3, dav⟩ false
        (some (5, 25)) 1 none false).2.1.w,
      (load_data_cond ⟨1, 100, 100, 3, pav⟩ ⟨96, 96, 3, dav⟩ false
        (some (5, 25)) 1 none false).2.1.c) =
      ((1 : ℕ), (100 : ℕ), (100 : ℕ), (3 : ℕ))) ∧
    sumSqR ((load_data_cond ⟨1, 100, 100, 3, pav⟩ ⟨96, 96, 3, dav⟩ false
      (some (5, 25)) 1 none false).1) 1 100 100 3 = 1 ∧
    sumSqR ((load_data_cond ⟨1, 100, 100, 3, pav⟩ ⟨96, 96, 3, dav⟩ false
      (some (5, 25)) 1 none false).2.2.1) 1 100 100 3 = 1 := by
  obtain ⟨h1, h2, h3, h4⟩ :=
    load_psf_pre_dims ⟨1, 100, 100, 3, pav⟩ false (some (5, 25))
  have hS1' : sumSq (load_psf_pre ⟨1, 100, 100, 3, pav⟩ false (some (5, 25))
      1 none false) ≠ 0 := hS1
  have hS2' : sumSq (load_data_pre
      (load_psf_pre ⟨1, 100, 100, 3, pav⟩ false (some (5, 25)) 1 none false)
      (load_psf_bg ⟨1, 100, 100, 3, pav⟩ false (some (5, 25)))
      ⟨96, 96, 3, dav⟩) ≠ 0 := hS2
  have hDeq := load_data_pre_96_eq pav dav
  refine ⟨?_, ?_, ?_, ?_⟩
  · show ((load_data_pre _ _ _).d, (load_data_pre _ _ _).h,
      (load_data_pre _ _ _).w, (load_data_pre _ _ _).c) = _
    rw [hDeq]
    show ((1 : ℕ),
      (load_psf_pre ⟨1, 100, 100, 3, pav⟩ false (some (5, 25)) 1 none
        false).h,
      (load_psf_pre ⟨1, 100, 100, 3, pav⟩ false (some (5, 25)) 1 none
        false).w, (3 : ℕ)) = _
    rw [h2, h3]
  · show ((load_psf_pre ⟨1, 100, 100, 3, pav⟩ false (some (5, 25)) 1 none
        false).d,
      (load_psf_pre ⟨1, 100, 100, 3, pav⟩ false (some (5, 25)) 1 none
        false).h,
      (load_psf_pre ⟨1, 100, 100, 3, pav⟩ false (some (5, 25)) 1 none
        false).w,
      (load_psf_pre ⟨1, 100, 100, 3, pav⟩ false (some (5, 25)) 1 none
        false).c) = ((1 : ℕ), (100 : ℕ), (100 : ℕ), (3 : ℕ))
    rw [h1, h2, h3, h4]
  · show sumSqR (normArr (load_psf_pre ⟨1, 100, 100, 3, pav⟩ false
      (some (5, 25)) 1 none false)) 1 100 100 3 = 1
    have h8 := sumSqR_normArr _ hS1'
    rw [h1, h2, h3, h4] at h8
    exact h8
  · show sumSqR (normArr (load_data_pre
      (load_psf_pre ⟨1, 100, 100, 3, pav⟩ false (some (5, 25)) 1 none false)
      (load_psf_bg ⟨1, 100, 100, 3, pav⟩ false (some (5, 25)))
      ⟨96, 96, 3, dav⟩)) 1 100 100 3 = 1
    have h8 := sumSqR_normArr _ hS2'
    have hXd : (load_data_pre
        (load_psf_pre ⟨1, 100, 100, 3, pav⟩ false (some (5, 25)) 1 none
          false)
        (load_psf_bg ⟨1, 100, 100, 3, pav⟩ false (some (5, 25)))
        ⟨96, 96, 3, dav⟩).d = 1 := by
      rw [hDeq]
      rfl
    have hXh : (load_data_pre
        (load_psf_pre ⟨1, 100, 100, 3, pav⟩ false (some (5, 25)) 1 none
          false)
        (load_psf_bg ⟨1, 100, 100, 3, pav⟩ false (some (5, 25)))
        ⟨96, 96, 3, dav⟩).h = 100 := by
      rw [hDeq]
      exact h2
    have hXw : (load_data_pre
        (load_psf_pre ⟨1, 100, 100, 3, pav⟩ false (some (5, 25)) 1 none
          false)
        (load_psf_bg ⟨1, 100, 100, 3, pav⟩ false (some (5, 25)))
        ⟨96, 96, 3, dav⟩).w = 100 := by
      rw [hDeq]
      exact h3
    have hXc : (load_data_pre
        (load_psf_pre ⟨1, 100, 100, 3, pav⟩ false (some (5, 25)) 1 none
          false)
        (load_psf_bg ⟨1, 100, 100, 3, pav⟩ false (some (5, 25)))
        ⟨96, 96, 3, dav⟩).c = 3 := by
      rw [hDeq]
      rfl
    rw [hXd, hXh, hXw, hXc] at h8
    exact h8

theorem mem_idxList3Arr {a : Arr3} {p : ℕ × ℕ × ℕ} :
    p ∈ idxList3' a ↔ p.1 < a.h ∧ p.2.1 < a.w ∧ p.2.2 < a.c := by
  obtain ⟨y, x, ch⟩ := p
  simp only [idxList3', List.mem_flatMap, List.mem_map, List.mem_range]
  constructor
  · rintro ⟨i, hi, j, hj, k, hk, h⟩
    simp only [Prod.mk.injEq] at h
    obtain ⟨rfl, rfl, rfl⟩ := h
    exact ⟨hi, hj, hk⟩
  · rintro ⟨hy, hx, hc⟩
    exact ⟨y, hy, x, hx, ch, hc, rfl⟩

theorem le_arrMax3 (a : Arr3) {y x ch : ℕ} (hy : y < a.h) (hx : x < a.w)
    (hch : ch < a.c) : a.val y x ch ≤ arrMax3 a := by
  refine mem_le_foldl_max ?_ _
  exact List.mem_map.mpr ⟨(y, x, ch), mem_idxList3Arr.mpr ⟨hy, hx, hch⟩, rfl⟩

theorem arrMax3_le (a : Arr3) {B : ℚ} (h : ∀ y x ch, a.val y x ch ≤ B) :
    arrMax3 a ≤ B := by
  refine foldl_max_le (h 0 0 0) ?_
  intro v hv
  obtain ⟨p, _, rfl⟩ := List.mem_map.mp hv
  exact h p.1 p.2.1 p.2.2

theorem resize4_val (a : Arr4) (th tw n y x ch : ℕ) :
    (resize4 a th tw).val n y x ch =
      (∑ i ∈ Finset.range a.h, ∑ j ∈ Finset.range a.w,
        overlap ((a.h : ℚ) / (th : ℚ)) i y *
          overlap ((a.w : ℚ) / (tw : ℚ)) j x * a.val n i j ch) /
        ((a.h : ℚ) / (th : ℚ) * ((a.w : ℚ) / (tw : ℚ))) := rfl

/-- A 100×100 RGB PSF that is a unit spike at pixel (50, 50), channel 0. -/
def psfSpikeF : ℕ → ℕ → ℕ → ℕ → ℚ :=
  fun _ y x ch => if y = 50 ∧ x = 50 ∧ ch = 0 then 1 else 0

/-- A 96×96 RGB measurement that is a unit spike at pixel (50, 50),
channel 0. -/
def dataSpikeF : ℕ → ℕ → ℕ → ℚ :=
  fun y x ch => if y = 50 ∧ x = 50 ∧ ch = 0 then 1 else 0

theorem psfSpike_nonneg : ∀ n y x ch,
    n < (⟨1, 100, 100, 3, psfSpikeF⟩ : Arr4).d →
    y < (⟨1, 100, 100, 3, psfSpikeF⟩ : Arr4).h →
    x < (⟨1, 100, 100, 3, psfSpikeF⟩ : Arr4).w →
    ch < (⟨1, 100, 100, 3, psfSpikeF⟩ : Arr4).c →
    0 ≤ (⟨1, 100, 100, 3, psfSpikeF⟩ : Arr4).val n y x ch := by
  intro n y x ch _ _ _ _
  show 0 ≤ (if y = 50 ∧ x = 50 ∧ ch = 0 then (1 : ℚ) else 0)
  split
  · norm_num
  · norm_num

theorem psfSpike_bgzero :
    ∑ p ∈ bgIdx ⟨1, 100, 100, 3, psfSpikeF⟩ 5 25,
      ∑ ch ∈ Finset.range (⟨1, 100, 100, 3, psfSpikeF⟩ : Arr4).c,
        (⟨1, 100, 100, 3, psfSpikeF⟩ : Arr4).val p.1 p.2.1 p.2.2 ch = 0 := by
  refine Finset.sum_eq_zero fun p hp => Finset.sum_eq_zero fun ch _ => ?_
  rw [mem_bgIdx] at hp
  show (if p.2.1 = 50 ∧ p.2.2 = 50 ∧ ch = 0 then (1 : ℚ) else 0) = 0
  rw [if_neg]
  rintro ⟨h50, -⟩
  omega

theorem psfSpike_sumSq : sumSq ⟨1, 100, 100, 3, psfSpikeF⟩ = 1 := by
  show (∑ n ∈ Finset.range 1, ∑ y ∈ Finset.range 100,
    ∑ x ∈ Finset.range 100, ∑ ch ∈ Finset.range 3,
      (psfSpikeF n y x ch) ^ 2) = 1
  rw [Finset.sum_range_one]
  rw [Finset.sum_eq_single_of_mem 50 (Finset.mem_range.mpr (by norm_num)) ?s1]
  case s1 =>
    intro b _ hb
    refine Finset.sum_eq_zero fun x' _ => Finset.sum_eq_zero fun ch' _ => ?_
    show (if b = 50 ∧ x' = 50 ∧ ch' = 0 then (1 : ℚ) else 0) ^ 2 = 0
    rw [if_neg fun h => hb h.1]
    norm_num
  rw [Finset.sum_eq_single_of_mem 50 (Finset.mem_range.mpr (by norm_num)) ?s2]
  case s2 =>
    intro b _ hb
    refine Finset.sum_eq_zero fun ch' _ => ?_
    show (if (50 : ℕ) = 50 ∧ b = 50 ∧ ch' = 0 then (1 : ℚ) else 0) ^ 2 = 0
    rw [if_neg fun h => hb h.2.1]
    norm_num
  show (∑ ch ∈ Finset.range 3,
    (if (50 : ℕ) = 50 ∧ (50 : ℕ) = 50 ∧ ch = 0 then (1 : ℚ) else 0) ^ 2) = 1
  norm_num [Finset.sum_range_succ]

theorem spike_bg_zero (ch : ℕ) :
    load_psf_bg ⟨1, 100, 100, 3, psfSpikeF⟩ false (some (5, 25)) ch = 0 := by
  show bgCh ⟨1, 100, 100, 3, psfSpikeF⟩ 5 25 ch = 0
  unfold bgCh
  rw [Finset.sum_eq_zero, zero_div]
  intro p hp
  rw [mem_bgIdx] at hp
  show (if p.2.1 = 50 ∧ p.2.2 = 50 ∧ ch = 0 then (1 : ℚ) else 0) = 0
  rw [if_neg]
  rintro ⟨h50, -⟩
  omega

theorem spike_dataSub_val (y x ch : ℕ) :
    (dataSub (load_psf_bg ⟨1, 100, 100, 3, psfSpikeF⟩ false (some (5, 25)))
      ⟨96, 96, 3, dataSpikeF⟩).val y x ch = dataSpikeF y x ch := by
  show dataSpikeF y x ch -
    load_psf_bg ⟨1, 100, 100, 3, psfSpikeF⟩ false (some (5, 25)) ch = _
  rw [spike_bg_zero, sub_zero]

set_option maxRecDepth 4096 in
theorem spike_M :
    arrMax3 (dataSub (load_psf_bg ⟨1, 100, 100, 3, psfSpikeF⟩ false
      (some (5, 25))) ⟨96, 96, 3, dataSpikeF⟩) = 1 := by
  refine le_antisymm (arrMax3_le _ fun y x ch => ?_) ?_
  · rw [spike_dataSub_val]
    show (if y = 50 ∧ x = 50 ∧ ch = 0 then (1 : ℚ) else 0) ≤ 1
    split
    · norm_num
    · norm_num
  · have h := le_arrMax3 (dataSub (load_psf_bg ⟨1, 100, 100, 3, psfSpikeF⟩
      false (some (5, 25))) ⟨96, 96, 3, dataSpikeF⟩)
      (show (50 : ℕ) < 96 by norm_num) (show (50 : ℕ) < 96 by norm_num)
      (show (0 : ℕ) < 3 by norm_num)
    rw [spike_dataSub_val] at h
    have hv : dataSpikeF 50 50 0 = 1 := by
      show (if (50 : ℕ) = 50 ∧ (50 : ℕ) = 50 ∧ (0 : ℕ) = 0 then (1 : ℚ)
        else 0) = 1
      rw [if_pos ⟨rfl, rfl, rfl⟩]
    exact le_trans (le_of_eq hv.symm) h

theorem spike_clip_val (n y x ch : ℕ) :
    (data4 (load_psf_bg ⟨1, 100, 100, 3, psfSpikeF⟩ false (some (5, 25)))
      ⟨96, 96, 3, dataSpikeF⟩).val n y x ch = dataSpikeF y x ch := by
  show (min (arrMax3 (dataSub (load_psf_bg ⟨1, 100, 100, 3, psfSpikeF⟩ false
      (some (5, 25))) ⟨96, 96, 3, dataSpikeF⟩))
    (max 0 ((dataSub (load_psf_bg ⟨1, 100, 100, 3, psfSpikeF⟩ false
      (some (5, 25))) ⟨96, 96, 3, dataSpikeF⟩).val y x ch))) = _
  rw [spike_M, spike_dataSub_val]
  show min 1 (max 0 (if y = 50 ∧ x = 50 ∧ ch = 0 then (1 : ℚ) else 0)) =
    (if y = 50 ∧ x = 50 ∧ ch = 0 then (1 : ℚ) else 0)
  split
  · norm_num
  · norm_num

theorem overlap_96_100 : overlap ((96 : ℚ) / 100) 50 52 = 22 / 25 := by
  norm_num [overlap, min_def, max_def]

theorem dataSpikeF_ne_y {y x ch : ℕ} (h : y ≠ 50) : dataSpikeF y x ch = 0 := by
  show (if y = 50 ∧ x = 50 ∧ ch = 0 then (1 : ℚ) else 0) = 0
  rw [if_neg fun hc => h hc.1]

theorem dataSpikeF_ne_x {y x ch : ℕ} (h : x ≠ 50) : dataSpikeF y x ch = 0 := by
  show (if y = 50 ∧ x = 50 ∧ ch = 0 then (1 : ℚ) else 0) = 0
  rw [if_neg fun hc => h hc.2.1]

theorem dataSpikeF_at : dataSpikeF 50 50 0 = 1 := by
  show (if (50 : ℕ) = 50 ∧ (50 : ℕ) = 50 ∧ (0 : ℕ) = 0 then (1 : ℚ)
    else 0) = 1
  rw [if_pos ⟨rfl, rfl, rfl⟩]

theorem spike_resize_entry :
    (resize4 (data4 (load_psf_bg ⟨1, 100, 100, 3, psfSpikeF⟩ false
      (some (5, 25))) ⟨96, 96, 3, dataSpikeF⟩) 100 100).val 0 52 52 0 =
      121 / 144 := by
  rw [resize4_val]
  rw [show (data4 (load_psf_bg ⟨1, 100, 100, 3, psfSpikeF⟩ false
    (some (5, 25))) ⟨96, 96, 3, dataSpikeF⟩).h = 96 from rfl]
  rw [show (data4 (load_psf_bg ⟨1, 100, 100, 3, psfSpikeF⟩ false
    (some (5, 25))) ⟨96, 96, 3, dataSpikeF⟩).w = 96 from rfl]
  push_cast
  rw [Finset.sum_eq_single_of_mem 50 (Finset.mem_range.mpr (by norm_num)) ?s1]
  case s1 =>
    intro b _ hb
    refine Finset.sum_eq_zero fun j _ => ?_
    rw [spike_clip_val, dataSpikeF_ne_y hb, mul_zero]
  rw [Finset.sum_eq_single_of_mem 50 (Finset.mem_range.mpr (by norm_num)) ?s2]
  case s2 =>
    intro b _ hb
    rw [spike_clip_val, dataSpikeF_ne_x hb, mul_zero]
  rw [spike_clip_val, dataSpikeF_at, overlap_96_100]
  norm_num

theorem spike_psfPre_sumSq_ne :
    sumSq (load_psf_pre ⟨1, 100, 100, 3, psfSpikeF⟩ false (some (5, 25)) 1
      none false) ≠ 0 := by
  rw [load_psf_pre_clean_sumSq ⟨1, 100, 100, 3, psfSpikeF⟩ false 5 25
    psfSpike_nonneg psfSpike_bgzero, psfSpike_sumSq]
  norm_num

theorem spike_dataPre_sumSq_ne :
    sumSq (load_data_pre
      (load_psf_pre ⟨1, 100, 100, 3, psfSpikeF⟩ false (some (5, 25)) 1 none
        false)
      (load_psf_bg ⟨1, 100, 100, 3, psfSpikeF⟩ false (some (5, 25)))
      ⟨96, 96, 3, dataSpikeF⟩) ≠ 0 := by
  rw [load_data_pre_96_eq psfSpikeF dataSpikeF]
  obtain ⟨h1, h2, h3, h4⟩ :=
    load_psf_pre_dims ⟨1, 100, 100, 3, psfSpikeF⟩ false (some (5, 25))
  rw [h2, h3]
  rw [show (⟨1, 100, 100, 3, psfSpikeF⟩ : Arr4).h = 100 from rfl]
  rw [show (⟨1, 100, 100, 3, psfSpikeF⟩ : Arr4).w = 100 from rfl]
  have hval : (resize4 (data4 (load_psf_bg ⟨1, 100, 100, 3, psfSpikeF⟩ false
      (some (5, 25))) ⟨96, 96, 3, dataSpikeF⟩) 100 100).val 0 52 52 0 ≠ 0 := by
    rw [spike_resize_entry]
    norm_num
  exact (sumSq_pos_of_entry _ (by exact Nat.one_pos)
    (by exact (by norm_num : (52 : ℕ) < 100))
    (by exact (by norm_num : (52 : ℕ) < 100))
    (by exact (by norm_num : (0 : ℕ) < 3)) hval).ne'

/-- Witness for C8: the spike PSF and spike measurement have non-degenerate
conditioned energy, and `load_data` on them produces matching
`1×100×100×3` shapes and unit squared norms. -/
theorem load_data_matched_shapes_unit_norm_witness :
    (sumSq ((load_data_cond ⟨1, 100, 100, 3, psfSpikeF⟩
      ⟨96, 96, 3, dataSpikeF⟩ false (some (5, 25)) 1 none false).2.1) ≠ 0) ∧
    (sumSq ((load_data_cond ⟨1, 100, 100, 3, psfSpikeF⟩
      ⟨96, 96, 3, dataSpikeF⟩ false (some (5, 25)) 1 none false).2.2.2) ≠ 0) ∧
    ((((load_data_cond ⟨1, 100, 100, 3, psfSpikeF⟩ ⟨96, 96, 3, dataSpikeF⟩
        false (some (5, 25)) 1 none false).2.2.2.d,
      (load_data_cond ⟨1, 100, 100, 3, psfSpikeF⟩ ⟨96, 96, 3, dataSpikeF⟩
        false (some (5, 25)) 1 none false).2.2.2.h,
      (load_data_cond ⟨1, 100, 100, 3, psfSpikeF⟩ ⟨96, 96, 3, dataSpikeF⟩
        false (some (5, 25)) 1 none false).2.2.2.w,
      (load_data_cond ⟨1, 100, 100, 3, psfSpikeF⟩ ⟨96, 96, 3, dataSpikeF⟩
        false (some (5, 25)) 1 none false).2.2.2.c) =
      ((1 : ℕ), (100 : ℕ), (100 : ℕ), (3 : ℕ))) ∧
    (((load_data_cond ⟨1, 100, 100, 3, psfSpikeF⟩ ⟨96, 96, 3, dataSpikeF⟩
        false (some (5, 25)) 1 none false).2.1.d,
      (load_data_cond ⟨1, 100, 100, 3, psfSpikeF⟩ ⟨96, 96, 3, dataSpikeF⟩
        false (some (5, 25)) 1 none false).2.1.h,
      (load_data_cond ⟨1, 100, 100, 3, psfSpikeF⟩ ⟨96, 96, 3, dataSpikeF⟩
        false (some (5, 25)) 1 none false).2.1.w,
      (load_data_cond ⟨1, 100, 100, 3, psfSpikeF⟩ ⟨96, 96, 3, dataSpikeF⟩
        false (some (5, 25)) 1 none false).2.1.c) =
      ((1 : ℕ), (100 : ℕ), (100 : ℕ), (3 : ℕ))) ∧
    sumSqR ((load_data_cond ⟨1, 100, 100, 3, psfSpikeF⟩
      ⟨96, 96, 3, dataSpikeF⟩ false (some (5, 25)) 1 none false).1)
      1 100 100 3 = 1 ∧
    sumSqR ((load_data_cond ⟨1, 100, 100, 3, psfSpikeF⟩
      ⟨96, 96, 3, dataSpikeF⟩ false (some (5, 25)) 1 none false).2.2.1)
      1 100 100 3 = 1) := by
  have hS1 : sumSq ((load_data_cond ⟨1, 100, 100, 3, psfSpikeF⟩
      ⟨96, 96, 3, dataSpikeF⟩ false (some (5, 25)) 1 none false).2.1) ≠ 0 :=
    spike_psfPre_sumSq_ne
  have hS2 : sumSq ((load_data_cond ⟨1, 100, 100, 3, psfSpikeF⟩
      ⟨96, 96, 3, dataSpikeF⟩ false (some (5, 25)) 1 none false).2.2.2) ≠ 0 :=
    spike_dataPre_sumSq_ne
  exact ⟨hS1, hS2,
    load_data_matched_shapes_unit_norm psfSpikeF dataSpikeF hS1 hS2⟩

end Lensless
